import Mathlib

/-!
# Receipt processor: scoring rules and the points store

A shallow embedding of `main.go` (package `main`): the seven scoring rules of
`processReceipts`, the map `receiptPoints` and the lookup
`getReceiptPointsByID`.

Conventions of the embedding.

* A Go `string` that came out of the JSON decoder is valid UTF-8, so it is a
  sequence of Unicode scalar values: a `String` here, handled as `List Char`.
  `len(s)` is the number of UTF-8 bytes.
* Go `int` is the 64-bit two's complement integer: an `Int` kept in range by
  `wrap64` at every arithmetic statement of the source.
* A `float64` is `F64`: a finite value is an integer number of units of
  `2^-1074` (every finite double is such a multiple), next to the infinities
  and NaN.  The sign of zero is not kept: no statement of the source can
  tell `-0` from `+0`.
* Library functions (`strconv`, `strings`, `math`, `unicode`) are modelled
  from their documented behaviour.  The Unicode range tables above Latin-1
  and the result of an out-of-range `float64`-to-`int` conversion (which the
  language leaves to the implementation) are parameters, gathered in
  `Target`.
* `c.BindJSON` is `bindJSON`, after `encoding/json`.  Its argument is what the
  decoder reads from the start of the body: the first JSON value (`Json`),
  whatever bytes follow it, or the decoder's error when the body does not
  start with a complete JSON value.  Members are matched to the fields by
  their tags, a mistyped value is an error, a missing field keeps its zero
  value.  `processReceipts` takes the outcome of the binding, so it is
  applied to `bindJSON first`.
-/

set_option exponentiation.threshold 5000
set_option maxRecDepth 20000

namespace ReceiptProcessor

/-! ## Machine integers -/

/-- Two's complement wrap-around of a Go `int` (64 bits). -/
def wrap64 (x : Int) : Int := (x + 9223372036854775808) % 18446744073709551616 - 9223372036854775808

/-- Largest Go `int`. -/
def maxInt64 : Int := 9223372036854775807

/-- Smallest Go `int`. -/
def minInt64 : Int := -9223372036854775808

/-! ## Strings -/

/-- Number of bytes of the UTF-8 encoding of a code point. -/
def utf8Len (c : Char) : Nat :=
  if c.toNat < 0x80 then 1 else if c.toNat < 0x800 then 2 else if c.toNat < 0x10000 then 3 else 4

/-- Go `len(s)`: the length of the string in bytes. -/
def byteLen (s : List Char) : Nat := (s.map utf8Len).sum

/-- ASCII decimal digit, as tested by `strconv`. -/
def isDigitChar (c : Char) : Bool := decide (48 ≤ c.toNat) && decide (c.toNat ≤ 57)

/-- Value of an ASCII decimal digit. -/
@[irreducible]
def digitVal (c : Char) : Nat := c.toNat - 48

/-- Value of a run of decimal digits, most significant first, continuing from `acc`. -/
def digitsValFrom (acc : Nat) : List Char → Nat
  | [] => acc
  | c :: cs => digitsValFrom (acc * 10 + digitVal c) cs

/-- Value of a run of decimal digits, most significant first. -/
def digitsVal (cs : List Char) : Nat := digitsValFrom 0 cs

/-- The two error kinds of `strconv.NumError`: `ErrSyntax` and `ErrRange`. -/
inductive NumErr where
  | malformed
  | outOfRange
  deriving DecidableEq, Repr

/-- Largest `uint64`. -/
def maxUint64 : Nat := 18446744073709551615

/-- The digit loop of `strconv.ParseUint` in base 10 with 64 bits, continuing
from the value `n`: a byte that is no digit is `ErrSyntax`; a digit at which
the value leaves the `uint64` range is `ErrRange`, returned at that digit,
before the bytes after it are read. -/
def parseUintFrom (n : Nat) : List Char → Nat × Option NumErr
  | [] => (n, none)
  | c :: cs =>
    if !isDigitChar c then (0, some NumErr.malformed)
    else if maxUint64 / 10 + 1 ≤ n then (maxUint64, some NumErr.outOfRange)
    else if maxUint64 < n * 10 + digitVal c then (maxUint64, some NumErr.outOfRange)
    else parseUintFrom (n * 10 + digitVal c) cs

/-- Go `strconv.ParseUint(s, 10, 64)`: the empty string is `ErrSyntax`. -/
def parseUint (s : List Char) : Nat × Option NumErr :=
  if s.isEmpty then (0, some NumErr.malformed) else parseUintFrom 0 s

/-- Go `strconv.Atoi` on a 64-bit target, which is `ParseInt(s, 10, 0)` (the
fast path for strings shorter than 19 bytes returns the same): the sign is
taken off and the rest goes through `ParseUint`.  A syntax error gives 0; a
range error of `ParseUint`, or a value outside the `int` range, gives the
nearest bound of `int` and `ErrRange`. -/
def atoi (s : List Char) : Int × Option NumErr :=
  let neg : Bool := s.head? == some '-'
  let body : List Char := if s.head? == some '-' || s.head? == some '+' then s.tail else s
  let un : Nat := (parseUint body).1
  if (parseUint body).2 = some NumErr.malformed then (0, some NumErr.malformed)
  else if !neg && decide (9223372036854775808 ≤ un) then (maxInt64, some NumErr.outOfRange)
  else if neg && decide (9223372036854775808 < un) then (minInt64, some NumErr.outOfRange)
  else if neg then (-(un : Int), none) else ((un : Int), none)

/-- Helper of `stringsSplit`: `cur` holds the current segment, reversed. -/
def stringsSplitAux (sep : Char) (cur : List Char) : List Char → List (List Char)
  | [] => [cur.reverse]
  | c :: cs => if c = sep then cur.reverse :: stringsSplitAux sep [] cs
               else stringsSplitAux sep (c :: cur) cs

/-- Go `strings.Split(s, sep)` for a separator of one ASCII character. -/
def stringsSplit (s : List Char) (sep : Char) : List (List Char) := stringsSplitAux sep [] s

/-- Go `strings.Replace(s, old, "", 1)` for `old` of one ASCII character:
the first occurrence of `old` is removed. -/
def stringsReplaceFirst (old : Char) : List Char → List Char
  | [] => []
  | c :: cs => if c = old then cs else c :: stringsReplaceFirst old cs

/-- Go `unicode.IsSpace`: the White_Space property. -/
def isSpace (c : Char) : Bool :=
  let n := c.toNat
  decide (9 ≤ n ∧ n ≤ 13) || n == 0x20 || n == 0x85 || n == 0xA0 || n == 0x1680 ||
  decide (0x2000 ≤ n ∧ n ≤ 0x200A) || n == 0x2028 || n == 0x2029 || n == 0x202F ||
  n == 0x205F || n == 0x3000

/-- Go `strings.TrimSpace`: leading and trailing white space removed. -/
def trimSpace (s : List Char) : List Char :=
  ((s.dropWhile isSpace).reverse.dropWhile isSpace).reverse

/-! ## float64 -/

/-- Number of units in 1.0: a unit is `2^-1074`, the smallest positive double. -/
def unitsPerOne : Nat := 2 ^ 1074

/-- Largest finite double, `(2^53 - 1) * 2^971`, in units. -/
def maxUnits : Nat := (2 ^ 53 - 1) * 2 ^ 2045

/-- A `float64` value.  `finite n` is the real number `n * 2^-1074`. -/
inductive F64 where
  | finite (n : Int)
  | inf (neg : Bool)
  | nan
  deriving DecidableEq, Repr

/-- Number of low bits that a magnitude of `k` units loses when it is kept with a
53-bit significand (`fuel` bounds the loop; `k` itself is enough). -/
def excessBitsAux : Nat → Nat → Nat
  | 0, _ => 0
  | fuel + 1, k => if k < 2 ^ 53 then 0 else excessBitsAux fuel (k / 2) + 1

/-- Number of low bits dropped from a magnitude of `k` units: 0 for a subnormal or
a significand that fits, else the bit length of `k` minus 53. -/
def excessBits (k : Nat) : Nat := excessBitsAux k k

/-- Nearest integer to `a / d`, ties to the even one. -/
def roundHalfEven (a d : Nat) : Nat :=
  if 2 * (a % d) < d then a / d
  else if d < 2 * (a % d) then a / d + 1
  else if (a / d) % 2 = 0 then a / d else a / d + 1

/-- IEEE 754 round-to-nearest-even of the real magnitude `a / b` units (`0 < b`) to
a multiple of the spacing of doubles at that magnitude; the result is in units. -/
def roundUnits (a b : Nat) : Nat :=
  roundHalfEven a (b * 2 ^ excessBits (a / b)) * 2 ^ excessBits (a / b)

/-- The double nearest to the real number `± a / b` units, and whether it overflowed. -/
def F64.ofUnitsRatio (neg : Bool) (a b : Nat) : F64 × Bool :=
  if maxUnits < roundUnits a b then (F64.inf neg, true)
  else (F64.finite (if neg then -(roundUnits a b : Int) else (roundUnits a b : Int)), false)

/-- The double nearest to the real number `± num / den`, and whether it overflowed. -/
def F64.ofRatio (neg : Bool) (num den : Nat) : F64 × Bool :=
  F64.ofUnitsRatio neg (num * unitsPerOne) den

/-- Go conversion `float64(i)` of an `int`. -/
def F64.ofInt (i : Int) : F64 := (F64.ofRatio (decide (i < 0)) i.natAbs 1).1

/-- The constant `2` as a `float64`. -/
def F64.two : F64 := F64.finite (2 * (unitsPerOne : Int))

/-- The constant `0.25` as a `float64` (exactly representable). -/
def F64.quarter : F64 := F64.finite ((2 ^ 1072 : Nat) : Int)

/-- The constant `0.2` as a `float64`: the double nearest to one fifth. -/
def F64.fifth : F64 := (F64.ofRatio false 1 5).1

/-- The constant `0` as a `float64`. -/
def F64.zero : F64 := F64.finite 0

/-- Go `x * y` on `float64`: the exact product, rounded to nearest even. -/
def F64.mul : F64 → F64 → F64
  | F64.nan, _ => F64.nan
  | _, F64.nan => F64.nan
  | F64.inf s, F64.inf t => F64.inf (s != t)
  | F64.inf s, F64.finite b => if b = 0 then F64.nan else F64.inf (s != decide (b < 0))
  | F64.finite a, F64.inf t => if a = 0 then F64.nan else F64.inf (decide (a < 0) != t)
  | F64.finite a, F64.finite b =>
      (F64.ofUnitsRatio (decide (a < 0) != decide (b < 0)) (a.natAbs * b.natAbs) unitsPerOne).1

/-- Go `x / y` on `float64`: the exact quotient, rounded to nearest even. -/
def F64.div : F64 → F64 → F64
  | F64.nan, _ => F64.nan
  | _, F64.nan => F64.nan
  | F64.inf _, F64.inf _ => F64.nan
  | F64.inf s, F64.finite b => F64.inf (s != decide (b < 0))
  | F64.finite _, F64.inf _ => F64.zero
  | F64.finite a, F64.finite b =>
      if b = 0 then (if a = 0 then F64.nan else F64.inf (decide (a < 0)))
      else (F64.ofUnitsRatio (decide (a < 0) != decide (b < 0)) (a.natAbs * unitsPerOne) b.natAbs).1

/-- Go `math.Ceil`. -/
def F64.ceil : F64 → F64
  | F64.finite n => F64.finite (-((-n) / (unitsPerOne : Int)) * (unitsPerOne : Int))
  | x => x

/-- Go `math.Floor`. -/
def F64.floor : F64 → F64
  | F64.finite n => F64.finite (n / (unitsPerOne : Int) * (unitsPerOne : Int))
  | x => x

/-- Go `math.Mod(x, y)`: the exact remainder, with the sign of `x`. -/
def F64.mod : F64 → F64 → F64
  | F64.nan, _ => F64.nan
  | _, F64.nan => F64.nan
  | F64.inf _, _ => F64.nan
  | F64.finite a, F64.inf _ => F64.finite a
  | F64.finite a, F64.finite b => if b = 0 then F64.nan else F64.finite (Int.tmod a b)

/-- Go `x == y` on `float64`: NaN equals nothing. -/
def F64.eq : F64 → F64 → Bool
  | F64.finite a, F64.finite b => decide (a = b)
  | F64.inf s, F64.inf t => s == t
  | _, _ => false

/-- The machine the program is compiled for and the Unicode tables of its Go
release: what the source does not fix. -/
structure Target where
  /-- Result of `int(f)` when `f` is NaN, infinite or outside the `int` range
  (implementation-dependent in Go). -/
  intOfOutOfRange : F64 → Int
  /-- Table `unicode.Letter` above U+00FF. -/
  letterAboveLatin1 : Nat → Bool
  /-- Table `unicode.Number` above U+00FF. -/
  numberAboveLatin1 : Nat → Bool
  /-- Table `unicode.Digit` above U+00FF. -/
  digitAboveLatin1 : Nat → Bool

/-- Go conversion `int(f)` of a `float64`: truncation toward zero when the result
fits, else the value the target gives. -/
def F64.toInt (tg : Target) : F64 → Int
  | F64.finite n =>
      if minInt64 ≤ Int.tdiv n (unitsPerOne : Int) ∧ Int.tdiv n (unitsPerOne : Int) ≤ maxInt64
      then Int.tdiv n (unitsPerOne : Int)
      else wrap64 (tg.intOfOutOfRange (F64.finite n))
  | x => wrap64 (tg.intOfOutOfRange x)

/-! ## strconv.ParseFloat -/

/-- Letters `a`-`f` and `A`-`F`: the bytes whose `lower` is a hexadecimal letter. -/
def isHexLetter (c : Char) : Bool :=
  decide (97 ≤ c.toNat ∧ c.toNat ≤ 102) || decide (65 ≤ c.toNat ∧ c.toNat ≤ 70)

/-- Value of a hexadecimal letter. -/
@[irreducible]
def hexLetterVal (c : Char) : Nat := if 97 ≤ c.toNat then c.toNat - 87 else c.toNat - 55

/-- ASCII lower-casing of `commonPrefixLenIgnoreCase`: only `A`-`Z` change. -/
def lowerAZ (c : Char) : Char :=
  if 65 ≤ c.toNat ∧ c.toNat ≤ 90 then Char.ofNat (c.toNat + 32) else c

/-- Length of the common beginning of `s` and the lower-case word `w`, ignoring the
case of `s` (`commonPrefixLenIgnoreCase` of `strconv`). -/
def commonLenIgnoreCase : List Char → List Char → Nat
  | c :: cs, w :: ws => if lowerAZ c = w then commonLenIgnoreCase cs ws + 1 else 0
  | _, _ => 0

/-- The function `special` of `strconv`: the words `inf`, `infinity` (with an
optional sign) and `nan`, in any case.  Gives the value and the number of
bytes taken. -/
def special (s : List Char) : Option (F64 × Nat) :=
  match s with
  | [] => none
  | c :: cs =>
    if c = '+' ∨ c = '-' ∨ c = 'i' ∨ c = 'I' then
      let signed : Bool := c == '+' || c == '-'
      let body : List Char := if signed then cs else s
      let nsign : Nat := if signed then 1 else 0
      let n0 : Nat := commonLenIgnoreCase body "infinity".data
      let n : Nat := if 3 < n0 ∧ n0 < 8 then 3 else n0
      if n = 3 ∨ n = 8 then some (F64.inf (c == '-'), nsign + n) else none
    else if c = 'n' ∨ c = 'N' then
      if commonLenIgnoreCase s "nan".data = 3 then some (F64.nan, 3) else none
    else none

/-- State of the mantissa loop of `readFloat`: the digits read so far as a number
in the base, how many of them came after the point, and the flags. -/
structure Scan where
  mant : Nat
  frac : Nat
  sawdigits : Bool
  sawdot : Bool
  underscores : Bool
  deriving DecidableEq, Repr

/-- The mantissa loop of `readFloat`: digits, at most one point, underscores.
Gives the state and the input left at the first other character. -/
def scanMantissa (base : Nat) : Scan → List Char → Scan × List Char
  | st, [] => (st, [])
  | st, c :: cs =>
    if c = '_' then scanMantissa base { st with underscores := true } cs
    else if c = '.' then
      if st.sawdot then (st, c :: cs) else scanMantissa base { st with sawdot := true } cs
    else if isDigitChar c then
      scanMantissa base { st with sawdigits := true, mant := st.mant * base + digitVal c,
                                  frac := if st.sawdot then st.frac + 1 else st.frac } cs
    else if base == 16 && isHexLetter c then
      scanMantissa base { st with sawdigits := true, mant := st.mant * base + hexLetterVal c,
                                  frac := if st.sawdot then st.frac + 1 else st.frac } cs
    else (st, c :: cs)

/-- The exponent digit loop of `readFloat`: the exponent stops growing once it
has reached 10000.  Gives the exponent, whether an underscore was seen, and
the input left. -/
def scanExponent : Nat → Bool → List Char → Nat × Bool × List Char
  | e, u, [] => (e, u, [])
  | e, u, c :: cs =>
    if c = '_' then scanExponent e true cs
    else if isDigitChar c then scanExponent (if e < 10000 then e * 10 + digitVal c else e) u cs
    else (e, u, c :: cs)

/-- What `underscoreOK` saw last. -/
inductive Saw where
  | start
  | digit
  | underscore
  | other
  deriving DecidableEq, Repr

/-- The loop of `underscoreOK`. -/
def underscoreOKAux (hex : Bool) : Saw → List Char → Bool
  | saw, [] => decide (saw ≠ Saw.underscore)
  | saw, c :: cs =>
    if isDigitChar c || (hex && isHexLetter c) then underscoreOKAux hex Saw.digit cs
    else if c = '_' then
      if saw ≠ Saw.digit then false else underscoreOKAux hex Saw.underscore cs
    else if saw = Saw.underscore then false
    else underscoreOKAux hex Saw.other cs

/-- The function `underscoreOK` of `strconv`: an underscore stands only between
digits, or between a base marker and a digit. -/
def underscoreOK (s : List Char) : Bool :=
  let s1 : List Char := if s.head? == some '-' || s.head? == some '+' then s.tail else s
  match s1 with
  | '0' :: c :: rest =>
    if c = 'b' ∨ c = 'B' ∨ c = 'o' ∨ c = 'O' ∨ c = 'x' ∨ c = 'X' then
      underscoreOKAux (c == 'x' || c == 'X') Saw.digit rest
    else underscoreOKAux false Saw.start s1
  | _ => underscoreOKAux false Saw.start s1

/-- What `readFloat` found: the sign, the digits as a number, and the power of the
base (10, or 2 for a hexadecimal mantissa) that scales it. -/
structure Scanned where
  neg : Bool
  hex : Bool
  mant : Nat
  exp : Int
  underscores : Bool
  deriving DecidableEq, Repr

/-- The test of `readFloat` for a hexadecimal mantissa: `0x` or `0X` with at least
one more byte after it. -/
def hasHexMarker : List Char → Bool
  | '0' :: x :: _ :: _ => x == 'x' || x == 'X'
  | _ => false

/-- The function `readFloat` of `strconv`: the number read and the input left, or
`none` where `readFloat` reports failure. -/
def readFloat (s : List Char) : Option (Scanned × List Char) :=
  match s with
  | [] => none
  | c0 :: _ =>
    let neg : Bool := c0 == '-'
    let s1 : List Char := if c0 = '+' ∨ c0 = '-' then s.tail else s
    let hex : Bool := hasHexMarker s1
    let s2 : List Char := if hex then s1.drop 2 else s1
    let base : Nat := if hex then 16 else 10
    let (st, s3) := scanMantissa base ⟨0, 0, false, false, false⟩ s2
    if !st.sawdigits then none
    else
      let dp : Int := if hex then -(4 * (st.frac : Int)) else -(st.frac : Int)
      match s3 with
      | e :: s4 =>
        if (!hex && (e == 'e' || e == 'E')) || (hex && (e == 'p' || e == 'P')) then
          match s4 with
          | [] => none
          | sg :: s5 =>
            let esign : Int := if sg = '-' then -1 else 1
            let s6 : List Char := if sg = '+' ∨ sg = '-' then s5 else s4
            match s6 with
            | [] => none
            | d :: _ =>
              if !isDigitChar d then none
              else
                let (ex, u, s7) := scanExponent 0 st.underscores s6
                some (⟨neg, hex, st.mant, dp + (ex : Int) * esign, u⟩, s7)
        else if hex then none
        else some (⟨neg, hex, st.mant, dp, st.underscores⟩, s3)
      | [] => if hex then none else some (⟨neg, hex, st.mant, dp, st.underscores⟩, [])

/-- The double nearest to the number read, and whether it overflowed. -/
def Scanned.value (r : Scanned) : F64 × Bool :=
  let b : Nat := if r.hex then 2 else 10
  if 0 ≤ r.exp then F64.ofRatio r.neg (r.mant * b ^ r.exp.toNat) 1
  else F64.ofRatio r.neg r.mant (b ^ (-r.exp).toNat)

/-- Go `strconv.ParseFloat(s, 64)`: the nearest double, rounded to even.  A
malformed string gives 0 and `ErrSyntax`; a magnitude too large gives an
infinity and `ErrRange`. -/
def parseFloat (s : List Char) : F64 × Option NumErr :=
  match special s with
  | some (v, n) => if n = byteLen s then (v, none) else (F64.zero, some NumErr.malformed)
  | none =>
    match readFloat s with
    | none => (F64.zero, some NumErr.malformed)
    | some (r, rest) =>
      if !rest.isEmpty || (r.underscores && !underscoreOK s) then (F64.zero, some NumErr.malformed)
      else if r.value.2 then (r.value.1, some NumErr.outOfRange) else (r.value.1, none)

/-! ## unicode -/

/-- Letters of Latin-1: the entries of the `properties` table of package `unicode`
that carry a letter bit. -/
def latin1Letter (n : Nat) : Bool :=
  decide (0x41 ≤ n ∧ n ≤ 0x5A) || decide (0x61 ≤ n ∧ n ≤ 0x7A) ||
  n == 0xAA || n == 0xB5 || n == 0xBA ||
  decide (0xC0 ≤ n ∧ n ≤ 0xD6) || decide (0xD8 ≤ n ∧ n ≤ 0xF6) || decide (0xF8 ≤ n ∧ n ≤ 0xFF)

/-- Numbers of Latin-1: the entries of the `properties` table of package `unicode`
that carry the number bit (the digits, the superscripts and the fractions). -/
def latin1Number (n : Nat) : Bool :=
  decide (0x30 ≤ n ∧ n ≤ 0x39) || n == 0xB2 || n == 0xB3 || n == 0xB9 ||
  decide (0xBC ≤ n ∧ n ≤ 0xBE)

/-- Go `unicode.IsLetter`: category L. -/
def isLetter (tg : Target) (c : Char) : Bool :=
  if c.toNat ≤ 0xFF then latin1Letter c.toNat else tg.letterAboveLatin1 c.toNat

/-- Go `unicode.IsNumber`: category N (Nd, Nl and No). -/
def isNumber (tg : Target) (c : Char) : Bool :=
  if c.toNat ≤ 0xFF then latin1Number c.toNat else tg.numberAboveLatin1 c.toNat

/-- Go `unicode.IsDigit`: category Nd, the decimal digits. -/
def isDigit (tg : Target) (c : Char) : Bool :=
  if c.toNat ≤ 0xFF then decide (0x30 ≤ c.toNat ∧ c.toNat ≤ 0x39) else tg.digitAboveLatin1 c.toNat

/-! ## The receipt and the scoring rules of `processReceipts` -/

/-- The struct `Item`. -/
structure Item where
  shortDescription : String
  price : String
  deriving DecidableEq, Repr

/-- The struct `Receipt`. -/
structure Receipt where
  retailer : String
  purchaseDate : String
  purchaseTime : String
  items : List Item
  total : String
  deriving DecidableEq, Repr

/-- Lines 47-51: one point for every code point of the retailer name that is a
letter or a number. -/
def scoreRetailer (tg : Target) : Int → List Char → Int
  | points, [] => points
  | points, char :: rest =>
    scoreRetailer tg (if isLetter tg char || isNumber tg char then wrap64 (points + 1) else points) rest

/-- The function `isWholeNumber`: `math.Ceil(x) == x`. -/
def isWholeNumber (x : F64) : Bool := F64.eq (F64.ceil x) x

/-- Lines 54-57: 50 points if the total is a whole number. -/
def scoreRoundTotal (total : F64) (points : Int) : Int :=
  if isWholeNumber total then wrap64 (points + 50) else points

/-- Lines 60-63: 25 points if `math.Mod(total, 0.25)` is zero. -/
def scoreQuarterTotal (total : F64) (points : Int) : Int :=
  if F64.eq (F64.mod total F64.quarter) F64.zero then wrap64 (points + 25) else points

/-- Lines 66-67: `points += int(math.Floor(float64(size)/2)) * 5`. -/
def scoreItemCount (tg : Target) (size : Nat) (points : Int) : Int :=
  wrap64 (points + wrap64 (F64.toInt tg (F64.floor (F64.div (F64.ofInt (size : Int)) F64.two)) * 5))

/-- Lines 71-78, the body of the loop over the items. -/
def scoreItem (tg : Target) (points : Int) (item : Item) : Int :=
  if byteLen (trimSpace item.shortDescription.data) % 3 = 0 then
    wrap64 (points + F64.toInt tg (F64.ceil (F64.mul (parseFloat item.price.data).1 F64.fifth)))
  else points

/-- Lines 70-79: the loop over the items. -/
def scoreDescriptions (tg : Target) (items : List Item) (points : Int) : Int :=
  items.foldl (scoreItem tg) points

/-- Lines 82-88: 6 points if the last segment of the date, read as an integer, is
odd.  `none` is the run-time panic of an index out of range. -/
def scorePurchaseDay (purchaseDate : List Char) (points : Int) : Option Int :=
  let split := stringsSplit purchaseDate '-'
  match split.get? (split.length - 1) with
  | none => none
  | some day => some (if Int.tmod (atoi day).1 2 ≠ 0 then wrap64 (points + 6) else points)

/-- Lines 91-95: 10 points if the time without its first colon, read as an
integer, is above 1400 and below 1600. -/
def scorePurchaseTime (purchaseTime : List Char) (points : Int) : Int :=
  if 1400 < (atoi (stringsReplaceFirst ':' purchaseTime)).1 ∧
     (atoi (stringsReplaceFirst ':' purchaseTime)).1 < 1600 then wrap64 (points + 10) else points

/-- Lines 36 and 46-95 of `processReceipts`: the points of a bound receipt, or
`none` for a run-time panic. -/
def computePoints (tg : Target) (receipt : Receipt) : Option Int :=
  let p1 := scoreRetailer tg 0 receipt.retailer.data
  let total := (parseFloat receipt.total.data).1
  let p2 := scoreRoundTotal total p1
  let p3 := scoreQuarterTotal total p2
  let p4 := scoreItemCount tg receipt.items.length p3
  let p5 := scoreDescriptions tg receipt.items p4
  match scorePurchaseDay receipt.purchaseDate.data p5 with
  | none => none
  | some p6 => some (scorePurchaseTime receipt.purchaseTime.data p6)

/-! ## The store and the two handlers -/

/-- The map `receiptPoints`, as the list of its entries: at most one per key. -/
abbrev Store := List (String × Int)

/-- The initial value of `receiptPoints`: `make(map[string]int)`. -/
def receiptPoints : Store := []

/-- Go `m[k]` with the comma-ok form. -/
def Store.lookup (m : Store) (k : String) : Option Int :=
  match m with
  | [] => none
  | (k1, v) :: rest => if k1 = k then some v else Store.lookup rest k

/-- Go `m[k] = v`. -/
def Store.assign (m : Store) (k : String) (v : Int) : Store :=
  (k, v) :: m.filter (fun e => decide (e.1 ≠ k))

/-- The body given to `c.JSON`. -/
inductive Body where
  | id (id : String)
  | points (points : Int)
  | invalidReceipt (error : String)
  | receiptNotFound
  | empty
  deriving DecidableEq, Repr

/-- The response written by a handler. -/
structure Response where
  status : Nat
  body : Body
  deriving DecidableEq, Repr

/-- The handler `processReceipts`.  `bound` is the outcome of `c.BindJSON`
(the receipt, or the text of the error) and `newID` the text of the identifier
that `uuid.New` gives.  A run-time panic is answered with status 500 by the
recovery middleware of `gin.Default`, the store untouched. -/
def processReceipts (tg : Target) (store : Store) (bound : Except String Receipt)
    (newID : String) : Store × Response :=
  match bound with
  | Except.error err => (store, ⟨400, Body.invalidReceipt err⟩)
  | Except.ok receipt =>
    match computePoints tg receipt with
    | none => (store, ⟨500, Body.empty⟩)
    | some points => (store.assign newID points, ⟨200, Body.id newID⟩)

/-- The handler `getReceiptPointsByID`; `id` is `c.Param("id")`. -/
def getReceiptPointsByID (store : Store) (id : String) : Store × Response :=
  match store.lookup id with
  | some result => (store, ⟨200, Body.points result⟩)
  | none => (store, ⟨404, Body.receiptNotFound⟩)

/-- The `amd64` target with the Unicode tables left empty above U+00FF: it stands
for the real target on inputs of Latin-1, for which those tables are never
consulted.  On `amd64` an out-of-range conversion gives the smallest `int`. -/
def amd64Latin1 : Target :=
  { intOfOutOfRange := fun _ => minInt64
    letterAboveLatin1 := fun _ => false
    numberAboveLatin1 := fun _ => false
    digitAboveLatin1 := fun _ => false }

/-! ## Request sequences and well-formed inputs -/

/-- A request served by the router of `main`. -/
inductive Request where
  | process (bound : Except String Receipt) (newID : String)
  | points (id : String)

/-- One request served on a store: the handler the router picks. -/
def serve (tg : Target) (store : Store) : Request → Store × Response
  | Request.process bound newID => processReceipts tg store bound newID
  | Request.points id => getReceiptPointsByID store id

/-- The store after a sequence of requests, served one after the other. -/
def serveAll (tg : Target) : Store → List Request → Store
  | store, [] => store
  | store, r :: rest => serveAll tg (serve tg store r).1 rest

/-- The identifiers issued by a sequence of requests: those of the submissions
that bound (a submission that fails to bind returns before `uuid.New`). -/
def issued : List Request → List String
  | [] => []
  | Request.process (Except.ok _) newID :: rest => newID :: issued rest
  | Request.process (Except.error _) _ :: rest => issued rest
  | Request.points _ :: rest => issued rest

/-- The decimal digit character of `d` (for `d < 10`). -/
def digitChar (d : Nat) : Char := Char.ofNat (48 + d)

/-- Two decimal digits of `n` (for `n < 100`), leading zero kept. -/
def twoDigits (n : Nat) : List Char := [digitChar (n / 10), digitChar (n % 10)]

/-- Four decimal digits of `n` (for `n < 10000`), leading zeros kept. -/
def fourDigits (n : Nat) : List Char := twoDigits (n / 100) ++ twoDigits (n % 100)

/-- The time of day `HH:MM`. -/
def clockText (h m : Nat) : List Char := twoDigits h ++ ':' :: twoDigits m

/-- The date `YYYY-MM-DD`. -/
def dateText (y m d : Nat) : List Char := fourDigits y ++ '-' :: (twoDigits m ++ '-' :: twoDigits d)

/-- An ASCII letter, `a`-`z` or `A`-`Z`. -/
def isAsciiLetter (c : Char) : Bool :=
  decide (0x41 ≤ c.toNat ∧ c.toNat ≤ 0x5A) || decide (0x61 ≤ c.toNat ∧ c.toNat ≤ 0x7A)

/-- The text of a decimal amount: an optional minus sign, the digits of the whole
part and, when there are fractional digits, a point and those digits. -/
def amountText (neg : Bool) (whole frac : List Char) : List Char :=
  (if neg then ['-'] else []) ++ (whole ++ (if frac.isEmpty then [] else '.' :: frac))

/-- The magnitude, in cents, of the amount written with the digits `whole` and at
most two fractional digits `frac`. -/
def amountCents (whole frac : List Char) : Nat :=
  digitsVal whole * 100 + digitsVal frac * 10 ^ (2 - frac.length)

/-- The digits of a decimal amount with at most two fractional digits. -/
def IsAmount (whole frac : List Char) : Prop :=
  whole ≠ [] ∧ (∀ c ∈ whole, isDigitChar c = true) ∧ (∀ c ∈ frac, isDigitChar c = true) ∧
    frac.length ≤ 2

/-- An item given by its description and the digits of its price. -/
structure PricedItem where
  description : String
  whole : List Char
  frac : List Char

/-- The item of the receipt: the price is written as a non-negative amount. -/
def PricedItem.item (p : PricedItem) : Item :=
  ⟨p.description, ⟨amountText false p.whole p.frac⟩⟩

/-- The price in cents. -/
def PricedItem.cents (p : PricedItem) : Nat := amountCents p.whole p.frac

/-- What rule 5 is said to add for an item: the price divided by five, rounded up,
when the number of characters of the trimmed description is a multiple of 3. -/
def PricedItem.bonus (p : PricedItem) : Nat :=
  if (trimSpace p.description.data).length % 3 = 0 then (p.cents + 499) / 500 else 0

/-- The sum of the bonuses of a list of items. -/
def bonusSum : List PricedItem → Nat
  | [] => 0
  | p :: ps => p.bonus + bonusSum ps

/-- An item whose description is ASCII and whose price is a decimal amount with at
most two fractional digits, of magnitude below `2^47`. -/
def PricedItem.WellFormed (p : PricedItem) : Prop :=
  (∀ c ∈ p.description.data, c.toNat < 0x80) ∧ IsAmount p.whole p.frac ∧ p.cents < 100 * 2 ^ 47

/-- A magnitude in units that a double can hold: a multiple of the spacing at its
size. -/
def Representable (v : Nat) : Prop := 2 ^ excessBits v ∣ v

/-- The sum, over all the items of a list, of the price divided by five and rounded
up: the most that rule 5 can add for the list. -/
def priceSum : List PricedItem → Nat
  | [] => 0
  | p :: ps => (p.cents + 499) / 500 + priceSum ps

/-! ## Binding the request body -/

/-- A JSON value as the decoder of `encoding/json` reads it; the members of an
object are kept in their order, duplicates included, and a string is the Go
string that the decoder makes of the literal. -/
inductive Json where
  | null
  | bool (b : Bool)
  | number (text : String)
  | string (s : String)
  | array (elems : List Json)
  | object (members : List (String × Json))

/-- How `UnmarshalTypeError.Value` names the kind of a JSON value. -/
def Json.kind : Json → String
  | Json.null => "null"
  | Json.bool _ => "bool"
  | Json.number _ => "number"
  | Json.string _ => "string"
  | Json.array _ => "array"
  | Json.object _ => "object"

/-- Go `(*UnmarshalTypeError).Error()` for a value met inside a struct:
`structName` is the struct type that holds the field, `field` the path of
JSON names from the root to the value, `goType` the Go type of the target. -/
def fieldTypeError (value structName field goType : String) : String :=
  "json: cannot unmarshal " ++ value ++ " into Go struct field " ++ structName ++ "." ++ field
    ++ " of type " ++ goType

/-- Go `(*UnmarshalTypeError).Error()` for the value at the root, outside any struct. -/
def valueTypeError (value goType : String) : String :=
  "json: cannot unmarshal " ++ value ++ " into Go value of type " ++ goType

/-- Simple case folding of a character of a key, as `encoding/json` folds a key to
match it with an ASCII field name: upper case to lower case, and the two
characters that fold to `s` and `k`. -/
def foldKeyChar (c : Char) : Char :=
  if 65 ≤ c.toNat ∧ c.toNat ≤ 90 then Char.ofNat (c.toNat + 32)
  else if c.toNat = 0x17F then 's'
  else if c.toNat = 0x212A then 'k'
  else c

/-- Whether the key of a member names the field with the JSON tag `name`: they are
equal after case folding (an exact match is one; the tags of a struct here
never fold to the same text, so no preference between fields arises). -/
def keyIs (key name : String) : Bool :=
  key.data.map foldKeyChar == name.data.map foldKeyChar

/-- A JSON value decoded into a Go `string` field that holds `old`: a JSON string
is stored, `null` leaves the field as it is, any other value leaves it as it
is and is a type error.  The result is the field and the error. -/
def decodeString (structName field : String) (old : String) : Json → String × Option String
  | Json.string s => (s, none)
  | Json.null => (old, none)
  | v => (old, some (fieldTypeError v.kind structName field "string"))

/-- One member of a JSON object decoded into an `Item`; the first error is kept and
decoding goes on, as `encoding/json` does with a type error (`saveError`). -/
def decodeItemMember (st : Item × Option String) (m : String × Json) : Item × Option String :=
  if keyIs m.1 "shortDescription" then
    ({ st.1 with shortDescription :=
        (decodeString "Item" "items.shortDescription" st.1.shortDescription m.2).1 },
      st.2.orElse
        (fun _ => (decodeString "Item" "items.shortDescription" st.1.shortDescription m.2).2))
  else if keyIs m.1 "price" then
    ({ st.1 with price := (decodeString "Item" "items.price" st.1.price m.2).1 },
      st.2.orElse (fun _ => (decodeString "Item" "items.price" st.1.price m.2).2))
  else st

/-- A JSON value decoded into the element of `Items` that holds `old`: an object
member by member, `null` leaves the element as it is, any other value leaves
it as it is and is a type error. -/
def decodeItem (old : Item) : Json → Item × Option String
  | Json.object ms => ms.foldl decodeItemMember (old, none)
  | Json.null => (old, none)
  | v => (old, some (fieldTypeError v.kind "Receipt" "items" "main.Item"))

/-- The elements of a JSON array decoded one by one into the backing array of
`Items`: element `i` is decoded into what the backing array holds at `i`, and
into the zero `Item` behind its end. -/
def decodeElems : List Json → List Item → List (Item × Option String)
  | [], _ => []
  | e :: es, backing => decodeItem (backing.headD ⟨"", ""⟩) e :: decodeElems es backing.tail

/-- A JSON value decoded into the field `Items`, a slice with the elements `old`
and, behind its length in the same backing array, the elements `spare` that an
earlier, longer array left there.  An array is decoded into the backing array
from its start and the slice is cut to the length of the array (the empty
array gives a new empty slice); `null` sets the slice to `nil`; any other
value leaves it as it is and is a type error.  The result is the slice, what
is left behind its length, and the first error. -/
def decodeItems (old spare : List Item) : Json → (List Item × List Item) × Option String
  | Json.array es =>
    if es.isEmpty then (([], []), none)
    else (((decodeElems es (old ++ spare)).map Prod.fst, (old ++ spare).drop es.length),
      (decodeElems es (old ++ spare)).findSome? Prod.snd)
  | Json.null => (([], []), none)
  | v => ((old, spare), some (fieldTypeError v.kind "Receipt" "items" "[]main.Item"))

/-- The receipt while the body is decoded into it: its fields, the elements left
in the backing array of `Items` behind its length, and the first error saved. -/
structure Decoding where
  receipt : Receipt
  spare : List Item
  saved : Option String

/-- One member of the object of the body decoded into the `Receipt`; a member whose
key names no field is skipped. -/
def decodeReceiptMember (st : Decoding) (m : String × Json) : Decoding :=
  if keyIs m.1 "retailer" then
    { st with
      receipt := { st.receipt with
        retailer := (decodeString "Receipt" "retailer" st.receipt.retailer m.2).1 },
      saved := st.saved.orElse
        (fun _ => (decodeString "Receipt" "retailer" st.receipt.retailer m.2).2) }
  else if keyIs m.1 "purchaseDate" then
    { st with
      receipt := { st.receipt with
        purchaseDate := (decodeString "Receipt" "purchaseDate" st.receipt.purchaseDate m.2).1 },
      saved := st.saved.orElse
        (fun _ => (decodeString "Receipt" "purchaseDate" st.receipt.purchaseDate m.2).2) }
  else if keyIs m.1 "purchaseTime" then
    { st with
      receipt := { st.receipt with
        purchaseTime := (decodeString "Receipt" "purchaseTime" st.receipt.purchaseTime m.2).1 },
      saved := st.saved.orElse
        (fun _ => (decodeString "Receipt" "purchaseTime" st.receipt.purchaseTime m.2).2) }
  else if keyIs m.1 "items" then
    { receipt := { st.receipt with items := (decodeItems st.receipt.items st.spare m.2).1.1 },
      spare := (decodeItems st.receipt.items st.spare m.2).1.2,
      saved := st.saved.orElse (fun _ => (decodeItems st.receipt.items st.spare m.2).2) }
  else if keyIs m.1 "total" then
    { st with
      receipt := { st.receipt with
        total := (decodeString "Receipt" "total" st.receipt.total m.2).1 },
      saved := st.saved.orElse
        (fun _ => (decodeString "Receipt" "total" st.receipt.total m.2).2) }
  else st

/-- A JSON value decoded into the zero `Receipt` (`var receipt Receipt`): an
object member by member, `null` leaves the receipt as it is, any other value
is a type error. -/
def decodeReceipt : Json → Receipt × Option String
  | Json.object ms =>
    ((ms.foldl decodeReceiptMember ⟨⟨"", "", "", [], ""⟩, [], none⟩).receipt,
      (ms.foldl decodeReceiptMember ⟨⟨"", "", "", [], ""⟩, [], none⟩).saved)
  | Json.null => (⟨"", "", "", [], ""⟩, none)
  | v => (⟨"", "", "", [], ""⟩, some (valueTypeError v.kind "main.Receipt"))

/-- Go `c.BindJSON(&receipt)`, which is `json.NewDecoder(body).Decode(&receipt)`
and no validation after it, the struct carrying no `binding` tag.  The decoder
reads one JSON value from the start of the body and stops there: `first` is
that value, whatever bytes come after it, or the text of the decoder's error
when the body does not start with a complete JSON value.  The value is then
decoded into the receipt, and the first type error saved on the way is the
error of the binding. -/
def bindJSON (first : Except String Json) : Except String Receipt :=
  match first with
  | Except.error msg => Except.error msg
  | Except.ok j =>
    match decodeReceipt j with
    | (receipt, none) => Except.ok receipt
    | (_, some e) => Except.error e

/-- A JSON value that is no text for a Go `string`: neither a string nor `null`. -/
def Json.notText : Json → Bool
  | Json.string _ => false
  | Json.null => false
  | _ => true

/-- A member of an element of `items` with a value of the wrong type: the key names
`shortDescription` or `price` and the value is neither a string nor `null`. -/
def mistypedItemMember (m : String × Json) : Bool :=
  (keyIs m.1 "shortDescription" || keyIs m.1 "price") && m.2.notText

/-- An element of `items` of the wrong type: neither an object nor `null`, or an
object with a mistyped member. -/
def mistypedElement : Json → Bool
  | Json.object ms => ms.any mistypedItemMember
  | Json.null => false
  | _ => true

/-- A value of the wrong type for `items`: neither an array nor `null`, or an array
with a mistyped element. -/
def mistypedItems : Json → Bool
  | Json.array es => es.any mistypedElement
  | Json.null => false
  | _ => true

/-- A member of the body with a value of the wrong type: the key names one of the
four text fields and the value is neither a string nor `null`, or the key names
`items` and the value is of the wrong type for it. -/
def mistypedMember (m : String × Json) : Bool :=
  ((keyIs m.1 "retailer" || keyIs m.1 "purchaseDate" || keyIs m.1 "purchaseTime" ||
      keyIs m.1 "total") && m.2.notText) ||
  (keyIs m.1 "items" && mistypedItems m.2)

/-- A first JSON value of the wrong types for a receipt: neither an object nor
`null`, or an object with a mistyped member.  Members that are missing, and
members whose key names no field, do not count. -/
def mistyped : Json → Bool
  | Json.object ms => ms.any mistypedMember
  | Json.null => false
  | _ => true

/-! ## Theorems -/

/-! ### Machine integers -/

theorem wrap64_of_range (x : Int) (h1 : minInt64 ≤ x) (h2 : x ≤ maxInt64) : wrap64 x = x := by
  unfold wrap64
  unfold minInt64 at h1
  unfold maxInt64 at h2
  omega

/-! ### The store -/

theorem lookup_filter_ne (m : Store) (k id : String) (h : k ≠ id) :
    Store.lookup (m.filter (fun e => decide (e.1 ≠ k))) id = Store.lookup m id := by
  induction m with
  | nil => rfl
  | cons e rest ih =>
    obtain ⟨k1, v⟩ := e
    by_cases hk : k1 = k
    · subst hk
      simp only [ne_eq, decide_not] at ih ⊢
      simp [List.filter, Store.lookup, h, ih]
    · simp only [ne_eq, decide_not] at ih ⊢
      simp [List.filter, Store.lookup, hk, ih]

theorem lookup_assign_same (m : Store) (k : String) (v : Int) :
    (m.assign k v).lookup k = some v := by
  simp [Store.assign, Store.lookup]

theorem lookup_assign_ne (m : Store) (k id : String) (v : Int) (h : k ≠ id) :
    (m.assign k v).lookup id = m.lookup id := by
  simp only [Store.assign, Store.lookup, h, if_false]
  exact lookup_filter_ne m k id h

/-! ### Splitting -/

theorem stringsSplitAux_ne_nil (sep : Char) (s cur : List Char) :
    stringsSplitAux sep cur s ≠ [] := by
  induction s generalizing cur with
  | nil => simp [stringsSplitAux]
  | cons c cs ih =>
    unfold stringsSplitAux
    split
    · simp
    · exact ih _

theorem scorePurchaseDay_isSome (purchaseDate : List Char) (points : Int) :
    ∃ p, scorePurchaseDay purchaseDate points = some p := by
  unfold scorePurchaseDay
  have hne : stringsSplit purchaseDate '-' ≠ [] := stringsSplitAux_ne_nil _ _ _
  have hlt : (stringsSplit purchaseDate '-').length - 1 < (stringsSplit purchaseDate '-').length := by
    have := List.length_pos.mpr hne
    omega
  simp only [List.get?_eq_getElem?, List.getElem?_eq_getElem hlt]
  exact ⟨_, rfl⟩

theorem computePoints_isSome (tg : Target) (receipt : Receipt) :
    ∃ p, computePoints tg receipt = some p := by
  unfold computePoints
  obtain ⟨p6, h6⟩ := scorePurchaseDay_isSome receipt.purchaseDate.data
    (scoreDescriptions tg receipt.items (scoreItemCount tg receipt.items.length
      (scoreQuarterTotal (parseFloat receipt.total.data).1
        (scoreRoundTotal (parseFloat receipt.total.data).1
          (scoreRetailer tg 0 receipt.retailer.data)))))
  simp only [h6]
  exact ⟨_, rfl⟩

/-! ### C1 and C2: the store round trip and the lookup miss -/

/-- C1. A receipt that binds is scored, its points are stored under the new
identifier, and a lookup of that identifier right after answers 200 with
exactly those points. -/
theorem C1_store_round_trip (tg : Target) (store : Store) (receipt : Receipt) (x : String) :
    ∃ points, computePoints tg receipt = some points ∧
      (processReceipts tg store (Except.ok receipt) x).2 = ⟨200, Body.id x⟩ ∧
      (getReceiptPointsByID (processReceipts tg store (Except.ok receipt) x).1 x).2
        = ⟨200, Body.points points⟩ := by
  obtain ⟨p, hp⟩ := computePoints_isSome tg receipt
  refine ⟨p, hp, ?_, ?_⟩
  · simp [processReceipts, hp]
  · simp [processReceipts, hp, getReceiptPointsByID, lookup_assign_same]

theorem serveAll_lookup_none (tg : Target) (reqs : List Request) (store : Store) (id : String)
    (hs : store.lookup id = none) (hid : id ∉ issued reqs) :
    (serveAll tg store reqs).lookup id = none := by
  induction reqs generalizing store with
  | nil => exact hs
  | cons r rest ih =>
    cases r with
    | process bound newID =>
      cases bound with
      | error e =>
        have hrest : id ∉ issued rest := by simpa [issued] using hid
        apply ih _ _ hrest
        simpa [serve, processReceipts] using hs
      | ok receipt =>
        have hne : newID ≠ id := by
          intro h
          apply hid
          simp [issued, h]
        have hrest : id ∉ issued rest := by
          intro h
          apply hid
          simp [issued, h]
        apply ih _ _ hrest
        obtain ⟨p, hp⟩ := computePoints_isSome tg receipt
        simp only [serve, processReceipts, hp]
        rw [lookup_assign_ne _ _ _ _ hne]
        exact hs
    | points q =>
      have hrest : id ∉ issued rest := by simpa [issued] using hid
      apply ih _ _ hrest
      simp only [serve, getReceiptPointsByID]
      split <;> exact hs

/-- C2. From the empty store, after any finite sequence of requests, the lookup of
an identifier that no submission was given answers 404 with the not-found
message, never points. -/
theorem C2_lookup_miss (tg : Target) (reqs : List Request) (id : String)
    (hid : id ∉ issued reqs) :
    (getReceiptPointsByID (serveAll tg receiptPoints reqs) id).2 = ⟨404, Body.receiptNotFound⟩ := by
  have h := serveAll_lookup_none tg reqs receiptPoints id rfl hid
  simp [getReceiptPointsByID, h]

/-- C2 at a concrete run: a submission that binds and gets `id-1`, one that does not
bind, a lookup of `id-1`; then a lookup of `id-2`. -/
theorem C2_lookup_miss_witness :
    "id-2" ∉ issued [Request.process (Except.ok ⟨"Target", "2022-01-01", "13:01", [], "35.35"⟩) "id-1",
      Request.process (Except.error "EOF") "id-2", Request.points "id-1"] ∧
    (getReceiptPointsByID (serveAll amd64Latin1 receiptPoints
      [Request.process (Except.ok ⟨"Target", "2022-01-01", "13:01", [], "35.35"⟩) "id-1",
        Request.process (Except.error "EOF") "id-2", Request.points "id-1"]) "id-2").2
      = ⟨404, Body.receiptNotFound⟩ :=
  ⟨by decide, C2_lookup_miss amd64Latin1 _ "id-2" (by decide)⟩

/-! ### C3: the afternoon window -/

theorem atoi_clockText :
    ∀ h, h < 24 → ∀ m, m < 60 →
      atoi (stringsReplaceFirst ':' (clockText h m)) = (((h * 100 + m : Nat) : Int), none) := by
  decide!

/-- C3. For a time `HH:MM` with `HH` in 00..23 and `MM` in 00..59, rule 7 adds 10
points exactly when the time is strictly after 14:00 and strictly before 16:00,
and adds nothing otherwise; `14:00` and `16:00` add nothing, `14:01` adds 10. -/
theorem C3_afternoon_window (h m : Nat) (hh : h ≤ 23) (hm : m ≤ 59) (points : Int) :
    scorePurchaseTime (clockText h m) points
      = (if 14 * 60 < h * 60 + m ∧ h * 60 + m < 16 * 60 then wrap64 (points + 10) else points) ∧
    scorePurchaseTime "14:00".data 0 = 0 ∧ scorePurchaseTime "16:00".data 0 = 0 ∧
    scorePurchaseTime "14:01".data 0 = 10 := by
  refine ⟨?_, by decide!, by decide!, by decide!⟩
  unfold scorePurchaseTime
  rw [atoi_clockText h (by omega) m (by omega)]
  simp only []
  have e : ((1400 : Int) < ((h * 100 + m : Nat) : Int) ∧ (((h * 100 + m : Nat) : Int)) < 1600)
      ↔ (14 * 60 < h * 60 + m ∧ h * 60 + m < 16 * 60) := by
    constructor
    · rintro ⟨h1, h2⟩
      constructor <;> omega
    · rintro ⟨h1, h2⟩
      constructor <;> omega
  by_cases hc : 14 * 60 < h * 60 + m ∧ h * 60 + m < 16 * 60
  · rw [if_pos (e.mpr hc), if_pos hc]
  · rw [if_neg (fun h0 => hc (e.mp h0)), if_neg hc]

/-- C3 at 15:59, the last minute of the window. -/
theorem C3_afternoon_window_witness :
    scorePurchaseTime (clockText 15 59) 0
      = (if 14 * 60 < 15 * 60 + 59 ∧ 15 * 60 + 59 < 16 * 60 then wrap64 (0 + 10) else 0) ∧
    scorePurchaseTime "14:00".data 0 = 0 ∧ scorePurchaseTime "16:00".data 0 = 0 ∧
    scorePurchaseTime "14:01".data 0 = 10 :=
  C3_afternoon_window 15 59 (by decide) (by decide) 0

/-! ### C4: the odd purchase day -/

theorem stringsSplitAux_no_sep (sep : Char) (xs cur : List Char) (h : sep ∉ xs) :
    stringsSplitAux sep cur xs = [cur.reverse ++ xs] := by
  induction xs generalizing cur with
  | nil => simp [stringsSplitAux]
  | cons c cs ih =>
    have hc : c ≠ sep := fun e => h (by simp [e])
    have hcs : sep ∉ cs := fun e => h (by simp [e])
    simp [stringsSplitAux, hc, ih _ hcs]

theorem stringsSplitAux_append_sep (sep : Char) (xs rest cur : List Char) (h : sep ∉ xs) :
    stringsSplitAux sep cur (xs ++ sep :: rest)
      = (cur.reverse ++ xs) :: stringsSplitAux sep [] rest := by
  induction xs generalizing cur with
  | nil => simp [stringsSplitAux]
  | cons c cs ih =>
    have hc : c ≠ sep := fun e => h (by simp [e])
    have hcs : sep ∉ cs := fun e => h (by simp [e])
    simp [stringsSplitAux, hc, ih _ hcs]

theorem digitChar_ne_dash : ∀ k, k < 10 → digitChar k ≠ '-' := by decide

theorem dash_not_mem_twoDigits (n : Nat) (h : n < 100) : '-' ∉ twoDigits n := by
  have h1 := digitChar_ne_dash (n / 10) (by omega)
  have h2 := digitChar_ne_dash (n % 10) (by omega)
  simp only [twoDigits, List.mem_cons, List.mem_singleton, List.not_mem_nil, or_false, not_or]
  exact ⟨fun e => h1 e.symm, fun e => h2 e.symm⟩

theorem dash_not_mem_fourDigits (n : Nat) (h : n < 10000) : '-' ∉ fourDigits n := by
  have h1 := dash_not_mem_twoDigits (n / 100) (by omega)
  have h2 := dash_not_mem_twoDigits (n % 100) (by omega)
  simp only [fourDigits, List.mem_append, not_or]
  exact ⟨h1, h2⟩

theorem stringsSplit_dateText (y m d : Nat) (hy : y < 10000) (hm : m < 100) (hd : d < 100) :
    stringsSplit (dateText y m d) '-' = [fourDigits y, twoDigits m, twoDigits d] := by
  unfold stringsSplit dateText
  rw [stringsSplitAux_append_sep _ _ _ _ (dash_not_mem_fourDigits y hy),
    stringsSplitAux_append_sep _ _ _ _ (dash_not_mem_twoDigits m hm),
    stringsSplitAux_no_sep _ _ _ (dash_not_mem_twoDigits d hd)]
  simp

theorem atoi_twoDigits : ∀ d, d < 100 → atoi (twoDigits d) = ((d : Int), none) := by
  decide!

/-- C4. For a date `YYYY-MM-DD` of decimal digits, rule 6 adds 6 points exactly
when the day, the integer value of the last segment, is odd, and adds nothing
otherwise; `2022-01-15` adds 6 and `2022-01-16` adds nothing. -/
theorem C4_odd_purchase_day (y m d : Nat) (hy : y < 10000) (hm : m < 100) (hd : d < 100)
    (points : Int) :
    scorePurchaseDay (dateText y m d) points
      = some (if d % 2 = 1 then wrap64 (points + 6) else points) ∧
    scorePurchaseDay "2022-01-15".data 0 = some 6 ∧
    scorePurchaseDay "2022-01-16".data 0 = some 0 := by
  refine ⟨?_, by decide!, by decide!⟩
  unfold scorePurchaseDay
  simp only [stringsSplit_dateText y m d hy hm hd, List.length_cons, List.length_nil,
    List.get?_eq_getElem?]
  simp only [show (0 + 1 + 1 + 1 - 1 : Nat) = 2 from rfl, List.getElem?_cons_succ,
    List.getElem?_cons_zero, atoi_twoDigits d hd]
  by_cases hodd : d % 2 = 1
  · have : Int.tmod (d : Int) 2 ≠ 0 := by
      rw [Int.tmod_eq_emod (by omega) (by omega)]
      omega
    simp [hodd, this]
  · have : Int.tmod (d : Int) 2 = 0 := by
      rw [Int.tmod_eq_emod (by omega) (by omega)]
      omega
    simp [hodd, this]

/-- C4 at the date 2022-01-15. -/
theorem C4_odd_purchase_day_witness :
    scorePurchaseDay (dateText 2022 1 15) 0 = some (if 15 % 2 = 1 then wrap64 (0 + 6) else 0) ∧
    scorePurchaseDay "2022-01-15".data 0 = some 6 ∧
    scorePurchaseDay "2022-01-16".data 0 = some 0 :=
  C4_odd_purchase_day 2022 1 15 (by decide) (by decide) (by decide) 0

/-! ### C9 and C10: the retailer characters -/

theorem scoreRetailer_eq (tg : Target) (s : List Char) (points : Int)
    (h0 : 0 ≤ points) (h1 : points + (s.length : Int) ≤ maxInt64) :
    scoreRetailer tg points s
      = points + ((s.countP (fun c => isLetter tg c || isNumber tg c) : Nat) : Int) := by
  induction s generalizing points with
  | nil => simp [scoreRetailer]
  | cons c cs ih =>
    simp only [List.length_cons, Nat.cast_add, Nat.cast_one] at h1
    unfold scoreRetailer
    by_cases hc : (isLetter tg c || isNumber tg c) = true
    · have hw : wrap64 (points + 1) = points + 1 := by
        apply wrap64_of_range
        · unfold minInt64
          omega
        · omega
      rw [if_pos hc, hw, ih (points + 1) (by omega) (by omega), List.countP_cons]
      simp only [hc, if_true]
      push_cast
      ring
    · rw [if_neg hc, ih points h0 (by omega), List.countP_cons]
      simp only [hc, if_false, Nat.add_zero]
      simp

/-- C9, as the claim states it, fails at the retailer `½` (U+00BD, a number that is
not a decimal digit): the code gives 1 point, the count of letters and decimal
digits is 0. -/
theorem C9_retailer_letters_digits_counterexample :
    scoreRetailer amd64Latin1 0 "½".data
      ≠ (("½".data.countP (fun c => isLetter amd64Latin1 c || isDigit amd64Latin1 c) : Nat) : Int) := by
  decide

/-- C9, amended. For every retailer (its length a Go `int`), rule 1 adds exactly the
number of code points that `unicode.IsLetter` or `unicode.IsNumber` accept
(category L, or category N: decimal digits and the other numbers alike); a
code point that neither accepts adds nothing. -/
theorem C9_retailer_letters_numbers (tg : Target) (retailer : String)
    (hlen : (retailer.data.length : Int) ≤ maxInt64) :
    scoreRetailer tg 0 retailer.data
      = ((retailer.data.countP (fun c => isLetter tg c || isNumber tg c) : Nat) : Int) ∧
    ∀ (c : Char) (points : Int), isLetter tg c = false → isNumber tg c = false →
      scoreRetailer tg points [c] = points := by
  constructor
  · rw [scoreRetailer_eq tg retailer.data 0 (le_refl 0) (by omega)]
    simp
  · intro c points hl hn
    simp [scoreRetailer, hl, hn]

/-- C9, amended, at the retailer `M&M Corner Market ½`. -/
theorem C9_retailer_letters_numbers_witness :
    scoreRetailer amd64Latin1 0 "M&M Corner Market ½".data
      = (("M&M Corner Market ½".data.countP (fun c => isLetter amd64Latin1 c || isNumber amd64Latin1 c) : Nat) : Int) ∧
    ∀ (c : Char) (points : Int), isLetter amd64Latin1 c = false → isNumber amd64Latin1 c = false →
      scoreRetailer amd64Latin1 points [c] = points :=
  C9_retailer_letters_numbers amd64Latin1 "M&M Corner Market ½" (by decide)

theorem countP_eq_length_of_asciiLetter (tg : Target) (s : List Char)
    (h : ∀ c ∈ s, isAsciiLetter c = true) :
    s.countP (fun c => isLetter tg c || isNumber tg c) = s.length := by
  rw [List.countP_eq_length]
  intro c hc
  have hl := h c hc
  have : isLetter tg c = true := by
    simp only [isAsciiLetter, Bool.or_eq_true, decide_eq_true_eq] at hl
    have hle : c.toNat ≤ 0xFF := by omega
    simp only [isLetter, if_pos hle, latin1Letter, Bool.or_eq_true, decide_eq_true_eq]
    rcases hl with h1 | h1
    · exact Or.inl (Or.inl (Or.inl (Or.inl (Or.inl (Or.inl (Or.inl h1))))))
    · exact Or.inl (Or.inl (Or.inl (Or.inl (Or.inl (Or.inl (Or.inr h1))))))
  simp [this]

/-- C10. For every retailer made only of ASCII letters, of length `N`, rule 1 adds
exactly `N` points; `Target` gets 6. -/
theorem C10_ascii_letter_retailer (tg : Target) (retailer : String)
    (hascii : ∀ c ∈ retailer.data, isAsciiLetter c = true)
    (hlen : (retailer.data.length : Int) ≤ maxInt64) :
    scoreRetailer tg 0 retailer.data = (retailer.data.length : Int) ∧
    scoreRetailer tg 0 "Target".data = 6 := by
  constructor
  · rw [scoreRetailer_eq tg retailer.data 0 (le_refl 0) (by omega),
      countP_eq_length_of_asciiLetter tg _ hascii]
    simp
  · rw [scoreRetailer_eq tg "Target".data 0 (le_refl 0) (by decide),
      countP_eq_length_of_asciiLetter tg _ (by decide)]
    decide

/-- C10 at the retailer `Walgreens`. -/
theorem C10_ascii_letter_retailer_witness :
    scoreRetailer amd64Latin1 0 "Walgreens".data = (("Walgreens".data.length : Nat) : Int) ∧
    scoreRetailer amd64Latin1 0 "Target".data = 6 :=
  C10_ascii_letter_retailer amd64Latin1 "Walgreens" (by decide) (by decide)

/-! ### Rounding to a double -/

theorem excessBitsAux_spec (fuel : Nat) : ∀ k, k ≤ fuel →
    (k < 2 ^ 53 → excessBitsAux fuel k = 0) ∧
    (2 ^ 53 ≤ k → 2 ^ (52 + excessBitsAux fuel k) ≤ k ∧ k < 2 ^ (53 + excessBitsAux fuel k)) := by
  induction fuel with
  | zero =>
    intro k hk
    have : k = 0 := by omega
    subst this
    simp [excessBitsAux]
  | succ f ih =>
    intro k hk
    constructor
    · intro hlt
      rw [excessBitsAux, if_pos hlt]
    · intro hge
      have hnlt : ¬ k < 2 ^ 53 := by omega
      simp only [excessBitsAux, if_neg hnlt]
      have hk2 : k / 2 ≤ f := by omega
      obtain ⟨ih1, ih2⟩ := ih (k / 2) hk2
      by_cases hsmall : k / 2 < 2 ^ 53
      · rw [ih1 hsmall]
        norm_num
        omega
      · obtain ⟨h1, h2⟩ := ih2 (by omega)
        have e1 : 2 ^ (52 + (excessBitsAux f (k / 2) + 1)) = 2 * 2 ^ (52 + excessBitsAux f (k / 2)) := by
          rw [← Nat.add_assoc, Nat.pow_succ, Nat.mul_comm]
        have e2 : 2 ^ (53 + (excessBitsAux f (k / 2) + 1)) = 2 * 2 ^ (53 + excessBitsAux f (k / 2)) := by
          rw [← Nat.add_assoc, Nat.pow_succ, Nat.mul_comm]
        rw [e1, e2]
        constructor <;> omega

theorem excessBits_of_lt (k : Nat) (h : k < 2 ^ 53) : excessBits k = 0 :=
  (excessBitsAux_spec k k (le_refl k)).1 h

theorem excessBits_spec (k : Nat) (h : 2 ^ 53 ≤ k) :
    2 ^ (52 + excessBits k) ≤ k ∧ k < 2 ^ (53 + excessBits k) :=
  (excessBitsAux_spec k k (le_refl k)).2 h

theorem excessBits_lt_of_lt (k t : Nat) (h : k < 2 ^ (53 + t)) : excessBits k ≤ t := by
  by_cases hk : k < 2 ^ 53
  · rw [excessBits_of_lt k hk]
    exact Nat.zero_le _
  · obtain ⟨h1, _⟩ := excessBits_spec k (by omega)
    by_contra hc
    have : 2 ^ (53 + t) ≤ 2 ^ (52 + excessBits k) := Nat.pow_le_pow_right (by norm_num) (by omega)
    omega

theorem excessBits_ge_of_ge (k t : Nat) (h : 2 ^ (52 + t) ≤ k) : t ≤ excessBits k := by
  by_cases hk : k < 2 ^ 53
  · have : 2 ^ 52 ≤ 2 ^ (52 + t) := Nat.pow_le_pow_right (by norm_num) (by omega)
    by_contra hc
    have : 2 ^ 53 ≤ 2 ^ (52 + t) := Nat.pow_le_pow_right (by norm_num) (by omega)
    omega
  · obtain ⟨_, h2⟩ := excessBits_spec k (by omega)
    by_contra hc
    have : 2 ^ (53 + excessBits k) ≤ 2 ^ (52 + t) := Nat.pow_le_pow_right (by norm_num) (by omega)
    omega

theorem roundHalfEven_of_dvd (a d : Nat) (hd : 0 < d) (h : d ∣ a) : roundHalfEven a d = a / d := by
  have : a % d = 0 := Nat.mod_eq_zero_of_dvd h
  simp [roundHalfEven, this, hd]

theorem roundHalfEven_bounds (a d : Nat) (hd : 0 < d) :
    2 * a ≤ 2 * (roundHalfEven a d * d) + d ∧ 2 * (roundHalfEven a d * d) ≤ 2 * a + d := by
  have hdm := Nat.div_add_mod a d
  have hlt := Nat.mod_lt a hd
  have hmul : (a / d + 1) * d = a / d * d + d := by ring
  have hcomm : d * (a / d) = a / d * d := Nat.mul_comm _ _
  unfold roundHalfEven
  split_ifs with h1 h2 h3
  · constructor <;> omega
  · rw [hmul]
    constructor <;> omega
  · constructor <;> omega
  · rw [hmul]
    constructor <;> omega

theorem representable_of_mul_pow (m t : Nat) (hm : m < 2 ^ 53) : Representable (m * 2 ^ t) := by
  unfold Representable
  have hlt : m * 2 ^ t < 2 ^ (53 + t) := by
    rw [Nat.pow_add]
    exact Nat.mul_lt_mul_of_pos_right hm (Nat.two_pow_pos _)
  have hs := excessBits_lt_of_lt _ t hlt
  exact Dvd.dvd.mul_left (Nat.pow_dvd_pow 2 hs) m

theorem roundUnits_exact (v b : Nat) (hb : 0 < b) (hv : Representable v) :
    roundUnits (v * b) b = v := by
  unfold roundUnits
  rw [Nat.mul_div_cancel v hb]
  unfold Representable at hv
  generalize excessBits v = s at hv
  obtain ⟨w, hw⟩ := hv
  have hpos : 0 < 2 ^ s := Nat.two_pow_pos _
  have hdvd : b * 2 ^ s ∣ v * b := ⟨w, by rw [hw]; ring⟩
  rw [roundHalfEven_of_dvd _ _ (Nat.mul_pos hb hpos) hdvd]
  have : v * b / (b * 2 ^ s) = w := by
    rw [hw, show 2 ^ s * w * b = w * (b * 2 ^ s) by ring]
    exact Nat.mul_div_cancel w (Nat.mul_pos hb hpos)
  rw [this, hw]
  ring

theorem roundUnits_error (a b : Nat) (hb : 0 < b) :
    2 * a ≤ 2 * (roundUnits a b * b) + b * 2 ^ excessBits (a / b) ∧
    2 * (roundUnits a b * b) ≤ 2 * a + b * 2 ^ excessBits (a / b) := by
  have hpos : 0 < 2 ^ excessBits (a / b) := Nat.two_pow_pos _
  have h := roundHalfEven_bounds a (b * 2 ^ excessBits (a / b)) (Nat.mul_pos hb hpos)
  unfold roundUnits
  have e : roundHalfEven a (b * 2 ^ excessBits (a / b)) * 2 ^ excessBits (a / b) * b
      = roundHalfEven a (b * 2 ^ excessBits (a / b)) * (b * 2 ^ excessBits (a / b)) := by ring
  rw [e]
  exact h

theorem roundUnits_scale (a b m : Nat) (hm : 0 < m) :
    roundUnits (a * m) (b * m) = roundUnits a b := by
  unfold roundUnits
  rw [Nat.mul_div_mul_right a b hm]
  have e : b * m * 2 ^ excessBits (a / b) = b * 2 ^ excessBits (a / b) * m := by ring
  rw [e]
  congr 1
  unfold roundHalfEven
  rw [Nat.mul_div_mul_right _ _ hm, Nat.mul_mod_mul_right]
  have e1 : (2 * (a % (b * 2 ^ excessBits (a / b)) * m) < b * 2 ^ excessBits (a / b) * m)
      ↔ (2 * (a % (b * 2 ^ excessBits (a / b))) < b * 2 ^ excessBits (a / b)) := by
    rw [← Nat.mul_assoc]
    exact Nat.mul_lt_mul_right hm
  have e2 : (b * 2 ^ excessBits (a / b) * m < 2 * (a % (b * 2 ^ excessBits (a / b)) * m))
      ↔ (b * 2 ^ excessBits (a / b) < 2 * (a % (b * 2 ^ excessBits (a / b)))) := by
    rw [← Nat.mul_assoc]
    exact Nat.mul_lt_mul_right hm
  simp only [e1, e2]

theorem ofUnitsRatio_exact (neg : Bool) (v b : Nat) (hb : 0 < b) (hv : Representable v)
    (hmax : v ≤ maxUnits) :
    F64.ofUnitsRatio neg (v * b) b = (F64.finite (if neg then -(v : Int) else (v : Int)), false) := by
  unfold F64.ofUnitsRatio
  rw [roundUnits_exact v b hb hv, if_neg (by omega)]

/-! ### C5: the item-count bonus -/

theorem unitsPerOne_eq : unitsPerOne = 2 * 2 ^ 1073 := by
  unfold unitsPerOne
  norm_num

theorem ofInt_natCast (n : Nat) (hn : n < 2 ^ 53) :
    F64.ofInt (n : Int) = F64.finite ((n * unitsPerOne : Nat) : Int) := by
  unfold F64.ofInt F64.ofRatio
  have hrep : Representable (n * unitsPerOne) := representable_of_mul_pow n 1074 hn
  have hmax : n * unitsPerOne ≤ maxUnits := by
    unfold maxUnits unitsPerOne
    have h1 : n ≤ 2 ^ 53 - 1 := by omega
    calc n * 2 ^ 1074 ≤ (2 ^ 53 - 1) * 2 ^ 1074 := Nat.mul_le_mul_right _ h1
      _ ≤ (2 ^ 53 - 1) * 2 ^ 2045 :=
        Nat.mul_le_mul_left _ (Nat.pow_le_pow_right (by norm_num) (by norm_num))
  have h := ofUnitsRatio_exact false (n * unitsPerOne) 1 (by norm_num) hrep hmax
  simp only [Nat.mul_one] at h
  have hneg : decide ((n : Int) < 0) = false := by simp
  simp only [Int.natAbs_ofNat, hneg, h]
  simp

theorem half_natCast (n : Nat) (hn : n < 2 ^ 53) :
    F64.div (F64.finite ((n * unitsPerOne : Nat) : Int)) F64.two
      = F64.finite ((n * 2 ^ 1073 : Nat) : Int) := by
  have hU : 0 < unitsPerOne := by unfold unitsPerOne; exact Nat.two_pow_pos _
  have hrep : Representable (n * 2 ^ 1073) := representable_of_mul_pow n 1073 hn
  have hmax : n * 2 ^ 1073 ≤ maxUnits := by
    unfold maxUnits
    have h1 : n ≤ 2 ^ 53 - 1 := by omega
    calc n * 2 ^ 1073 ≤ (2 ^ 53 - 1) * 2 ^ 1073 := Nat.mul_le_mul_right _ h1
      _ ≤ (2 ^ 53 - 1) * 2 ^ 2045 :=
        Nat.mul_le_mul_left _ (Nat.pow_le_pow_right (by norm_num) (by norm_num))
  have h := ofUnitsRatio_exact false (n * 2 ^ 1073) (2 * unitsPerOne) (by omega) hrep hmax
  have e : n * 2 ^ 1073 * (2 * unitsPerOne) = n * unitsPerOne * unitsPerOne := by
    rw [unitsPerOne_eq]
    ring
  rw [e] at h
  have hb : (2 * (unitsPerOne : Int)) ≠ 0 := by omega
  have hn1 : decide ((((n * unitsPerOne : Nat) : Int)) < 0) = false := by
    rw [decide_eq_false_iff_not]
    omega
  have hn2 : decide ((2 * (unitsPerOne : Int)) < 0) = false := by
    rw [decide_eq_false_iff_not]
    omega
  have ha : (2 * (unitsPerOne : Int)).natAbs = 2 * unitsPerOne := by omega
  simp only [F64.div, F64.two, if_neg hb, hn1, hn2, Int.natAbs_ofNat, ha, bne_self_eq_false, h]
  simp

theorem scoreItemCount_eq (tg : Target) (n : Nat) (hn : n < 2 ^ 53) (points : Int) :
    scoreItemCount tg n points = wrap64 (points + ((n / 2 * 5 : Nat) : Int)) := by
  have hU : 0 < unitsPerOne := by unfold unitsPerOne; exact Nat.two_pow_pos _
  unfold scoreItemCount
  rw [ofInt_natCast n hn, half_natCast n hn]
  have hfl : ((n * 2 ^ 1073 : Nat) : Int) / (unitsPerOne : Int) = ((n / 2 : Nat) : Int) := by
    rw [← Int.natCast_div]
    congr 1
    rw [unitsPerOne_eq]
    exact Nat.mul_div_mul_right n 2 (Nat.two_pow_pos _)
  have htd : Int.tdiv (((n / 2 : Nat) : Int) * (unitsPerOne : Int)) (unitsPerOne : Int)
      = ((n / 2 : Nat) : Int) := by
    rw [Int.tdiv_eq_ediv (by positivity) (by omega), Int.mul_ediv_cancel _ (by omega)]
  have hr1 : minInt64 ≤ ((n / 2 : Nat) : Int) := by unfold minInt64; omega
  have hr2 : ((n / 2 : Nat) : Int) ≤ maxInt64 := by unfold maxInt64; omega
  simp only [F64.floor, F64.toInt, hfl, htd, hr1, hr2, and_self, if_true]
  have hw : wrap64 (((n / 2 : Nat) : Int) * 5) = ((n / 2 * 5 : Nat) : Int) := by
    rw [wrap64_of_range _ (by unfold minInt64; omega) (by unfold maxInt64; omega)]
    push_cast
    ring
  rw [hw]

/-- C5. For every item list of length `n` (below `2^53`, which every slice that
fits in memory is), rule 4 adds exactly `5 * (n / 2)` points: the floating-point
expression `int(math.Floor(float64(n)/2))*5` is the integer `(n / 2) * 5`; four
items and five items both add 10. -/
theorem C5_item_count_bonus (tg : Target) (items : List Item) (hn : items.length < 2 ^ 53)
    (points : Int) :
    scoreItemCount tg items.length points
      = wrap64 (points + ((items.length / 2 * 5 : Nat) : Int)) ∧
    scoreItemCount tg 4 0 = 10 ∧ scoreItemCount tg 5 0 = 10 := by
  refine ⟨scoreItemCount_eq tg _ hn points, ?_, ?_⟩
  · rw [scoreItemCount_eq tg 4 (by norm_num) 0]
    decide
  · rw [scoreItemCount_eq tg 5 (by norm_num) 0]
    decide

/-- C5 at a list of five items. -/
theorem C5_item_count_bonus_witness :
    scoreItemCount amd64Latin1 (List.replicate 5 (⟨"Gatorade", "2.25"⟩ : Item)).length 0
      = wrap64 (0 + (((List.replicate 5 (⟨"Gatorade", "2.25"⟩ : Item)).length / 2 * 5 : Nat) : Int)) ∧
    scoreItemCount amd64Latin1 4 0 = 10 ∧ scoreItemCount amd64Latin1 5 0 = 10 :=
  C5_item_count_bonus amd64Latin1 (List.replicate 5 ⟨"Gatorade", "2.25"⟩) (by decide) 0

/-! ### C6: the round-dollar total -/

theorem isWholeNumber_finite (v : Int) :
    isWholeNumber (F64.finite v) = true ↔ ∃ k : Int, v = k * (unitsPerOne : Int) := by
  have hU : (0 : Int) < (unitsPerOne : Int) := by
    have : 0 < unitsPerOne := by unfold unitsPerOne; exact Nat.two_pow_pos _
    omega
  simp only [isWholeNumber, F64.ceil, F64.eq, decide_eq_true_eq]
  constructor
  · intro h
    exact ⟨-(-v / (unitsPerOne : Int)), h.symm⟩
  · rintro ⟨k, rfl⟩
    rw [← Int.neg_mul, Int.mul_ediv_cancel _ (ne_of_gt hU)]
    simp

/-- C6. For every total that parses without error to a finite number, rule 2 adds 50
points exactly when the parsed value is an integer (zero and the negative
integers included) and adds nothing otherwise; `10.00` adds 50, `35.35` adds
nothing, `0` and `-3` add 50. -/
theorem C6_round_dollar_total (total : String) (v : Int) (points : Int)
    (hparse : parseFloat total.data = (F64.finite v, none)) :
    ((∃ k : Int, v = k * (unitsPerOne : Int)) →
      scoreRoundTotal (parseFloat total.data).1 points = wrap64 (points + 50)) ∧
    ((¬ ∃ k : Int, v = k * (unitsPerOne : Int)) →
      scoreRoundTotal (parseFloat total.data).1 points = points) ∧
    scoreRoundTotal (parseFloat "10.00".data).1 0 = 50 ∧
    scoreRoundTotal (parseFloat "35.35".data).1 0 = 0 ∧
    scoreRoundTotal (parseFloat "0".data).1 0 = 50 ∧
    scoreRoundTotal (parseFloat "-3".data).1 0 = 50 := by
  refine ⟨?_, ?_, by decide!, by decide!, by decide!, by decide!⟩
  · intro h
    rw [hparse]
    simp only [scoreRoundTotal]
    rw [if_pos ((isWholeNumber_finite v).mpr h)]
  · intro h
    rw [hparse]
    simp only [scoreRoundTotal]
    rw [if_neg (fun hw => h ((isWholeNumber_finite v).mp hw))]

/-- C6 at the total `10.00`, whose value is 10 units of one. -/
theorem C6_round_dollar_total_witness :
    ((∃ k : Int, (10 * (unitsPerOne : Int)) = k * (unitsPerOne : Int)) →
      scoreRoundTotal (parseFloat "10.00".data).1 0 = wrap64 (0 + 50)) ∧
    ((¬ ∃ k : Int, (10 * (unitsPerOne : Int)) = k * (unitsPerOne : Int)) →
      scoreRoundTotal (parseFloat "10.00".data).1 0 = 0) ∧
    scoreRoundTotal (parseFloat "10.00".data).1 0 = 50 ∧
    scoreRoundTotal (parseFloat "35.35".data).1 0 = 0 ∧
    scoreRoundTotal (parseFloat "0".data).1 0 = 50 ∧
    scoreRoundTotal (parseFloat "-3".data).1 0 = 50 :=
  C6_round_dollar_total "10.00" (10 * (unitsPerOne : Int)) 0 (by decide!)

/-! ### C7: the quarter-multiple total -/

theorem roundUnits_cents_quarter (c : Nat) (hc : c < 100 * 2 ^ 47) :
    (2 ^ 1072 ∣ roundUnits (c * unitsPerOne) 100 ↔ 25 ∣ c) := by
  have hs : excessBits (c * unitsPerOne / 100) ≤ 1068 := by
    apply excessBits_lt_of_lt
    apply Nat.div_lt_of_lt_mul
    have e : 100 * 2 ^ (53 + 1068) = 100 * 2 ^ 47 * unitsPerOne := by
      unfold unitsPerOne
      norm_num
    rw [e]
    exact Nat.mul_lt_mul_of_pos_right hc (by unfold unitsPerOne; exact Nat.two_pow_pos _)
  constructor
  · rintro ⟨j, hj⟩
    obtain ⟨h1, h2⟩ := roundUnits_error (c * unitsPerOne) 100 (by norm_num)
    have hp : 2 ^ excessBits (c * unitsPerOne / 100) ≤ 2 ^ 1068 :=
      Nat.pow_le_pow_right (by norm_num) hs
    rw [hj] at h1 h2
    unfold unitsPerOne at h1 h2 hp
    generalize 2 ^ excessBits (c * 2 ^ 1074 / 100) = E at h1 h2 hp
    by_contra hne
    have hjc : 25 * j ≠ c := fun e => hne ⟨j, e.symm⟩
    omega
  · rintro ⟨j, rfl⟩
    have hj : j < 2 ^ 53 := by
      have : (100 : Nat) * 2 ^ 47 < 25 * 2 ^ 53 := by norm_num
      omega
    have hrep : Representable (j * 2 ^ 1072) := representable_of_mul_pow j 1072 hj
    have e : 25 * j * unitsPerOne = j * 2 ^ 1072 * 100 := by
      unfold unitsPerOne
      rw [show (2 : Nat) ^ 1074 = 4 * 2 ^ 1072 by norm_num]
      ring
    rw [e, roundUnits_exact _ 100 (by norm_num) hrep]
    exact Dvd.intro_left j rfl

/-! ### Parsing a decimal amount -/

theorem toNat_of_isDigitChar {c : Char} (h : isDigitChar c = true) :
    48 ≤ c.toNat ∧ c.toNat ≤ 57 := by
  simpa [isDigitChar] using h

theorem ne_of_isDigitChar {c : Char} (h : isDigitChar c = true) (x : Char)
    (hx : x.toNat < 48 ∨ 57 < x.toNat) : c ≠ x := by
  intro e
  subst e
  have := toNat_of_isDigitChar h
  omega

theorem digitsValFrom_cons (acc : Nat) (c : Char) (cs : List Char) :
    digitsValFrom acc (c :: cs) = digitsValFrom (acc * 10 + digitVal c) cs := rfl

theorem digitsValFrom_eq (acc : Nat) (xs : List Char) :
    digitsValFrom acc xs = acc * 10 ^ xs.length + digitsVal xs := by
  induction xs generalizing acc with
  | nil =>
    show acc = acc * 10 ^ 0 + 0
    omega
  | cons c cs ih =>
    unfold digitsVal
    rw [digitsValFrom_cons, digitsValFrom_cons, ih, ih (0 * 10 + digitVal c), List.length_cons]
    ring

theorem scanMantissa_digit (st : Scan) (c : Char) (xs : List Char) (hc : isDigitChar c = true) :
    scanMantissa 10 st (c :: xs)
      = scanMantissa 10 { st with sawdigits := true, mant := st.mant * 10 + digitVal c,
                                  frac := if st.sawdot then st.frac + 1 else st.frac } xs := by
  have h1 : c ≠ '_' := ne_of_isDigitChar hc _ (by decide)
  have h2 : c ≠ '.' := ne_of_isDigitChar hc _ (by decide)
  rw [scanMantissa, if_neg h1, if_neg h2, if_pos hc]

theorem scanMantissa_digits (ds rest : List Char) (st : Scan)
    (hds : ∀ c ∈ ds, isDigitChar c = true) (hne : ds ≠ []) :
    scanMantissa 10 st (ds ++ rest)
      = scanMantissa 10 { st with sawdigits := true, mant := digitsValFrom st.mant ds,
                                  frac := if st.sawdot then st.frac + ds.length else st.frac } rest := by
  induction ds generalizing st with
  | nil => exact absurd rfl hne
  | cons c cs ih =>
    have hc : isDigitChar c = true := hds c (by simp)
    have hcs : ∀ x ∈ cs, isDigitChar x = true := fun x hx => hds x (by simp [hx])
    rw [List.cons_append, scanMantissa_digit st c _ hc, digitsValFrom_cons]
    by_cases hnil : cs = []
    · subst hnil
      rfl
    · rw [ih _ hcs hnil]
      cases hdot : st.sawdot
      · simp
      · have e : st.frac + 1 + cs.length = st.frac + (cs.length + 1) := by omega
        simp [e]

theorem hasHexMarker_of_no_x (s : List Char) (h : ∀ c ∈ s, c ≠ 'x' ∧ c ≠ 'X') :
    hasHexMarker s = false := by
  match s with
  | [] => rfl
  | [_] => simp [hasHexMarker]
  | [_, _] => simp [hasHexMarker]
  | a :: x :: y :: rest =>
    have hx := h x (by simp)
    unfold hasHexMarker
    split
    · rename_i heq
      simp only [List.cons.injEq] at heq
      obtain ⟨_, rfl, _⟩ := heq
      simp [hx.1, hx.2]
    · rfl

theorem scanMantissa_amount (whole frac : List Char) (h : IsAmount whole frac) :
    scanMantissa 10 ⟨0, 0, false, false, false⟩
        (whole ++ (if frac.isEmpty then [] else '.' :: frac))
      = (⟨digitsValFrom (digitsVal whole) frac, frac.length, true, !frac.isEmpty, false⟩, []) := by
  obtain ⟨hne, hw, hf, _⟩ := h
  rw [scanMantissa_digits whole _ _ hw hne]
  cases frac with
  | nil => rfl
  | cons f fs =>
    have h1 : ('.' : Char) ≠ '_' := by decide
    simp only [List.isEmpty_cons, Bool.false_eq_true, if_false]
    rw [scanMantissa, if_neg h1, if_pos rfl]
    simp only [Bool.false_eq_true, if_false]
    have := scanMantissa_digits (f :: fs) [] ⟨digitsValFrom 0 whole, 0, true, true, false⟩ hf (by simp)
    rw [List.append_nil] at this
    rw [this]
    simp [scanMantissa, digitsVal]

theorem amountText_chars (whole frac : List Char) (h : IsAmount whole frac) :
    ∀ c ∈ whole ++ (if frac.isEmpty then [] else '.' :: frac), c ≠ 'x' ∧ c ≠ 'X' := by
  obtain ⟨_, hw, hf, _⟩ := h
  intro c hc
  have hd : isDigitChar c = true ∨ c = '.' := by
    rw [List.mem_append] at hc
    rcases hc with hc | hc
    · exact Or.inl (hw c hc)
    · cases frac with
      | nil => simp at hc
      | cons f fs =>
        simp only [List.isEmpty_cons, Bool.false_eq_true, if_false, List.mem_cons] at hc
        rcases hc with hc | hc | hc
        · exact Or.inr hc
        · exact Or.inl (hf c (by simp [hc]))
        · exact Or.inl (hf c (by simp [hc]))
  rcases hd with hd | hd
  · exact ⟨ne_of_isDigitChar hd _ (by decide), ne_of_isDigitChar hd _ (by decide)⟩
  · subst hd
    exact ⟨by decide, by decide⟩

theorem readFloat_amount (neg : Bool) (whole frac : List Char) (h : IsAmount whole frac) :
    readFloat (amountText neg whole frac)
      = some (⟨neg, false, digitsValFrom (digitsVal whole) frac, -(frac.length : Int), false⟩, []) := by
  have hscan := scanMantissa_amount whole frac h
  have hhex := hasHexMarker_of_no_x _ (amountText_chars whole frac h)
  obtain ⟨w0, ws, rfl⟩ := List.exists_cons_of_ne_nil h.1
  have hw0 : isDigitChar w0 = true := h.2.1 w0 (by simp)
  have n1 : w0 ≠ '+' := ne_of_isDigitChar hw0 _ (by decide)
  have n2 : w0 ≠ '-' := ne_of_isDigitChar hw0 _ (by decide)
  cases neg with
  | false =>
    simp only [amountText, Bool.false_eq_true, if_false, List.nil_append] at *
    rw [List.cons_append] at hscan hhex ⊢
    simp only [readFloat, n1, n2, or_self, if_false]
    simp only [hhex, Bool.false_eq_true, if_false, hscan]
    simp [n2]
  | true =>
    simp only [amountText, if_true, List.singleton_append] at *
    simp only [readFloat, or_true, if_true, List.tail_cons]
    simp only [hhex, Bool.false_eq_true, if_false, hscan]
    simp

theorem commonLen_digit (c : Char) (cs w : List Char) (hc : isDigitChar c = true) :
    commonLenIgnoreCase (c :: cs) ('i' :: w) = 0 := by
  have hb := toNat_of_isDigitChar hc
  have hl : lowerAZ c = c := by
    unfold lowerAZ
    rw [if_neg (by omega)]
  have hne : c ≠ 'i' := ne_of_isDigitChar hc _ (by decide)
  simp [commonLenIgnoreCase, hl, hne]

theorem special_amount (neg : Bool) (whole frac : List Char) (h : IsAmount whole frac) :
    special (amountText neg whole frac) = none := by
  obtain ⟨w0, ws, rfl⟩ := List.exists_cons_of_ne_nil h.1
  have hw0 : isDigitChar w0 = true := h.2.1 w0 (by simp)
  have n1 : w0 ≠ '+' := ne_of_isDigitChar hw0 _ (by decide)
  have n2 : w0 ≠ '-' := ne_of_isDigitChar hw0 _ (by decide)
  have n3 : w0 ≠ 'i' := ne_of_isDigitChar hw0 _ (by decide)
  have n4 : w0 ≠ 'I' := ne_of_isDigitChar hw0 _ (by decide)
  have n5 : w0 ≠ 'n' := ne_of_isDigitChar hw0 _ (by decide)
  have n6 : w0 ≠ 'N' := ne_of_isDigitChar hw0 _ (by decide)
  cases neg with
  | false =>
    simp only [amountText, Bool.false_eq_true, if_false, List.nil_append, List.cons_append]
    simp [special, n1, n2, n3, n4, n5, n6]
  | true =>
    simp only [amountText, if_true, List.singleton_append, List.cons_append]
    generalize (ws ++ if frac.isEmpty = true then [] else '.' :: frac) = t
    have hcl := commonLen_digit w0 t ['n', 'f', 'i', 'n', 'i', 't', 'y'] hw0
    simp [special, hcl]

theorem ofUnitsRatio_scale (neg : Bool) (a b m : Nat) (hm : 0 < m) :
    F64.ofUnitsRatio neg (a * m) (b * m) = F64.ofUnitsRatio neg a b := by
  unfold F64.ofUnitsRatio
  rw [roundUnits_scale a b m hm]

theorem digitsVal_nil : digitsVal [] = 0 := rfl

theorem value_amount (neg : Bool) (whole frac : List Char) (hlen : frac.length ≤ 2) :
    Scanned.value ⟨neg, false, digitsValFrom (digitsVal whole) frac, -(frac.length : Int), false⟩
      = F64.ofUnitsRatio neg (amountCents whole frac * unitsPerOne) 100 := by
  have hmant := digitsValFrom_eq (digitsVal whole) frac
  unfold Scanned.value F64.ofRatio amountCents
  simp only [Bool.false_eq_true, if_false]
  by_cases h0 : frac.length = 0
  · have hnil : frac = [] := List.length_eq_zero.mp h0
    subst hnil
    simp only [List.length_nil, Nat.cast_zero, neg_zero, le_refl, if_true, Int.toNat_zero,
      Nat.pow_zero, Nat.mul_one, digitsVal_nil, Nat.zero_mul, Nat.add_zero]
    have : digitsValFrom (digitsVal whole) [] = digitsVal whole := rfl
    rw [this]
    have := ofUnitsRatio_scale neg (digitsVal whole * unitsPerOne) 1 100 (by norm_num)
    rw [← this]
    congr 1
    ring
  · have hneg : ¬ (0 : Int) ≤ -(frac.length : Int) := by omega
    rw [if_neg hneg, hmant]
    have hj : (- -(frac.length : Int)).toNat = frac.length := by
      rw [neg_neg]
      exact Int.toNat_natCast _
    rw [hj]
    have hpos : 0 < 10 ^ (2 - frac.length) := Nat.pos_pow_of_pos _ (by norm_num)
    have := ofUnitsRatio_scale neg
      ((digitsVal whole * 10 ^ frac.length + digitsVal frac) * unitsPerOne) (10 ^ frac.length)
      (10 ^ (2 - frac.length)) hpos
    rw [← this]
    have e10 : 10 ^ frac.length * 10 ^ (2 - frac.length) = 100 := by
      rw [← Nat.pow_add]
      have : frac.length + (2 - frac.length) = 2 := by omega
      rw [this]
    rw [e10]
    congr 1
    have : (digitsVal whole * 10 ^ frac.length + digitsVal frac) * unitsPerOne * 10 ^ (2 - frac.length)
        = (digitsVal whole * (10 ^ frac.length * 10 ^ (2 - frac.length))
            + digitsVal frac * 10 ^ (2 - frac.length)) * unitsPerOne := by ring
    rw [this, e10]

theorem parseFloat_amount (neg : Bool) (whole frac : List Char) (h : IsAmount whole frac) :
    parseFloat (amountText neg whole frac)
      = ((F64.ofUnitsRatio neg (amountCents whole frac * unitsPerOne) 100).1,
         if (F64.ofUnitsRatio neg (amountCents whole frac * unitsPerOne) 100).2
         then some NumErr.outOfRange else none) := by
  unfold parseFloat
  rw [special_amount neg whole frac h, readFloat_amount neg whole frac h]
  simp only [List.isEmpty_nil, Bool.not_true, Bool.false_and, Bool.or_self, Bool.false_eq_true,
    if_false, value_amount neg whole frac h.2.2.2]
  split <;> rfl

theorem roundUnits_cents_le (c : Nat) (hc : c < 100 * 2 ^ 47) :
    roundUnits (c * unitsPerOne) 100 ≤ maxUnits := by
  have hs : excessBits (c * unitsPerOne / 100) ≤ 1068 := by
    apply excessBits_lt_of_lt
    apply Nat.div_lt_of_lt_mul
    have e : 100 * 2 ^ (53 + 1068) = 100 * 2 ^ 47 * unitsPerOne := by
      unfold unitsPerOne
      norm_num
    rw [e]
    exact Nat.mul_lt_mul_of_pos_right hc (by unfold unitsPerOne; exact Nat.two_pow_pos _)
  obtain ⟨_, h2⟩ := roundUnits_error (c * unitsPerOne) 100 (by norm_num)
  have hp : 2 ^ excessBits (c * unitsPerOne / 100) ≤ 2 ^ 1068 :=
    Nat.pow_le_pow_right (by norm_num) hs
  generalize roundUnits (c * unitsPerOne) 100 = n at h2 ⊢
  generalize 2 ^ excessBits (c * unitsPerOne / 100) = E at h2 hp
  unfold maxUnits
  unfold unitsPerOne at h2
  omega

theorem parseFloat_amount_small (neg : Bool) (whole frac : List Char) (h : IsAmount whole frac)
    (hb : amountCents whole frac < 100 * 2 ^ 47) :
    parseFloat (amountText neg whole frac)
      = (F64.finite (if neg then -((roundUnits (amountCents whole frac * unitsPerOne) 100 : Nat) : Int)
                     else ((roundUnits (amountCents whole frac * unitsPerOne) 100 : Nat) : Int)), none) := by
  rw [parseFloat_amount neg whole frac h]
  have hle := roundUnits_cents_le _ hb
  unfold F64.ofUnitsRatio
  rw [if_neg (by omega)]
  simp

theorem mod_quarter_eq_zero (neg : Bool) (n : Nat) :
    F64.eq (F64.mod (F64.finite (if neg then -(n : Int) else (n : Int))) F64.quarter) F64.zero = true
      ↔ 2 ^ 1072 ∣ n := by
  have hq : ((2 ^ 1072 : Nat) : Int) ≠ 0 := by
    have : 0 < 2 ^ 1072 := Nat.two_pow_pos _
    omega
  simp only [F64.mod, F64.quarter, F64.zero, F64.eq, if_neg hq, decide_eq_true_eq]
  rw [← Int.dvd_iff_tmod_eq_zero]
  cases neg with
  | false =>
    simp only [Bool.false_eq_true, if_false]
    exact Int.ofNat_dvd
  | true =>
    simp only [if_true]
    rw [Int.dvd_neg]
    exact Int.ofNat_dvd

/-- C7, as the claim states it, fails at the total `140737488355328.01` (2^47 and
one cent): the nearest double is 2^47, a multiple of 0.25, so the code adds 25
points although the cents are 01. -/
theorem C7_quarter_total_counterexample :
    scoreQuarterTotal (parseFloat (amountText false "140737488355328".data "01".data)).1 0
      ≠ (if amountCents "140737488355328".data "01".data % 25 = 0 then wrap64 (0 + 25) else 0) := by
  decide!

/-- C7, amended. For every total written as a decimal amount with at most two
fractional digits and of magnitude below 2^47 (140737488355328), rule 3 adds 25
points exactly when the amount is a multiple of 0.25 (its amount in cents is a
multiple of 25) and adds nothing otherwise; `10.00` adds 25, `35.35` adds
nothing. -/
theorem C7_quarter_total (neg : Bool) (whole frac : List Char) (h : IsAmount whole frac)
    (hb : amountCents whole frac < 100 * 2 ^ 47) (points : Int) :
    scoreQuarterTotal (parseFloat (amountText neg whole frac)).1 points
      = (if amountCents whole frac % 25 = 0 then wrap64 (points + 25) else points) ∧
    scoreQuarterTotal (parseFloat "10.00".data).1 0 = 25 ∧
    scoreQuarterTotal (parseFloat "35.35".data).1 0 = 0 := by
  refine ⟨?_, by decide!, by decide!⟩
  rw [parseFloat_amount_small neg whole frac h hb]
  unfold scoreQuarterTotal
  have hiff := (mod_quarter_eq_zero neg (roundUnits (amountCents whole frac * unitsPerOne) 100)).trans
    (roundUnits_cents_quarter _ hb)
  by_cases hc : amountCents whole frac % 25 = 0
  · rw [if_pos (hiff.mpr (Nat.dvd_of_mod_eq_zero hc)), if_pos hc]
  · rw [if_neg (fun h0 => hc (Nat.mod_eq_zero_of_dvd (hiff.mp h0))), if_neg hc]

/-- C7, amended, at the total `-12.5`. -/
theorem C7_quarter_total_witness :
    scoreQuarterTotal (parseFloat (amountText true "12".data "5".data)).1 0
      = (if amountCents "12".data "5".data % 25 = 0 then wrap64 (0 + 25) else 0) ∧
    scoreQuarterTotal (parseFloat "10.00".data).1 0 = 25 ∧
    scoreQuarterTotal (parseFloat "35.35".data).1 0 = 0 :=
  C7_quarter_total true "12".data "5".data
    ⟨by decide, by decide, by decide, by decide⟩ (by decide!) 0

/-! ### Rounding: order and lattice facts -/

theorem roundHalfEven_le (a d w : Nat) (hd : 0 < d) (h : a ≤ w * d) : roundHalfEven a d ≤ w := by
  have hdm := Nat.div_add_mod a d
  have hlt := Nat.mod_lt a hd
  have hq : a / d ≤ w := by
    rw [Nat.div_le_iff_le_mul_add_pred hd]
    have : w * d = d * w := Nat.mul_comm _ _
    omega
  unfold roundHalfEven
  rcases Nat.lt_or_ge (a / d) w with hlt' | hge
  · split_ifs <;> omega
  · have heq : a / d = w := by omega
    have hmod : a % d = 0 := by
      rw [heq, Nat.mul_comm] at hdm
      omega
    rw [hmod, if_pos (by omega)]
    omega

theorem roundHalfEven_gt (a d n : Nat) (hd : 0 < d) (h : (2 * n + 1) * d < 2 * a) :
    n + 1 ≤ roundHalfEven a d := by
  have hdm := Nat.div_add_mod a d
  have hlt := Nat.mod_lt a hd
  have hexp : (2 * n + 1) * d = 2 * (d * n) + d := by ring
  rw [hexp] at h
  rcases Nat.lt_or_ge (a / d) n with h1 | h1
  · have := Nat.mul_le_mul_left d (show a / d + 1 ≤ n by omega)
    rw [Nat.mul_add, Nat.mul_one] at this
    omega
  · rcases Nat.lt_or_ge n (a / d) with h2 | h2
    · have hle : a / d ≤ roundHalfEven a d := by
        unfold roundHalfEven
        split_ifs <;> omega
      omega
    · have heq : a / d = n := by omega
      rw [heq] at hdm
      have hbig : d < 2 * (a % d) := by omega
      unfold roundHalfEven
      rw [if_neg (by omega), if_pos hbig, heq]

theorem roundHalfEven_of_small_rem (q d r : Nat) (h : 2 * r < d) :
    roundHalfEven (q * d + r) d = q := by
  have hd : 0 < d := by omega
  have hr : r < d := by omega
  have hdiv : (q * d + r) / d = q := by
    rw [Nat.mul_comm, Nat.mul_add_div hd, Nat.div_eq_of_lt hr]
    rfl
  have hmod : (q * d + r) % d = r := by
    rw [Nat.mul_comm, Nat.mul_add_mod, Nat.mod_eq_of_lt hr]
  unfold roundHalfEven
  rw [hmod, hdiv, if_pos h]

theorem pow_excessBits_dvd_roundUnits (a b : Nat) : 2 ^ excessBits (a / b) ∣ roundUnits a b :=
  Dvd.intro_left _ rfl

theorem roundUnits_le_of_le (a b v : Nat) (hb : 0 < b) (hv : Representable v) (h : a ≤ v * b) :
    roundUnits a b ≤ v := by
  have hq : a / b ≤ v := by
    apply Nat.div_le_of_le_mul
    rw [Nat.mul_comm]
    exact h
  have hdvd : 2 ^ excessBits (a / b) ∣ v := by
    by_cases hk : a / b < 2 ^ 53
    · rw [excessBits_of_lt _ hk]
      simp
    · obtain ⟨h1, _⟩ := excessBits_spec (a / b) (by omega)
      have hge := excessBits_ge_of_ge v (excessBits (a / b)) (by omega)
      exact Nat.dvd_trans (Nat.pow_dvd_pow 2 hge) hv
  obtain ⟨w, hw⟩ := hdvd
  unfold roundUnits
  generalize excessBits (a / b) = s at hw ⊢
  have hpos : 0 < 2 ^ s := Nat.two_pow_pos _
  have hle : roundHalfEven a (b * 2 ^ s) ≤ w := by
    apply roundHalfEven_le _ _ _ (Nat.mul_pos hb hpos)
    calc a ≤ v * b := h
      _ = w * (b * 2 ^ s) := by rw [hw]; ring
  calc roundHalfEven a (b * 2 ^ s) * 2 ^ s ≤ w * 2 ^ s := Nat.mul_le_mul_right _ hle
    _ = v := by rw [hw]; ring

theorem roundUnits_le_pow (a b : Nat) (hb : 0 < b) (h53 : 2 ^ 53 ≤ a / b) :
    roundUnits a b ≤ 2 ^ (53 + excessBits (a / b)) := by
  obtain ⟨_, h2⟩ := excessBits_spec (a / b) h53
  have hrep : Representable (2 ^ (53 + excessBits (a / b))) := by
    have := representable_of_mul_pow 1 (53 + excessBits (a / b)) (by norm_num)
    rwa [Nat.one_mul] at this
  apply roundUnits_le_of_le a b _ hb hrep
  have : a < (a / b + 1) * b := by
    have := Nat.div_add_mod a b
    have := Nat.mod_lt a hb
    have e : (a / b + 1) * b = b * (a / b) + b := by ring
    omega
  have h3 : (a / b + 1) * b ≤ 2 ^ (53 + excessBits (a / b)) * b :=
    Nat.mul_le_mul_right _ (by omega)
  omega

/-! ### C8: the price of a qualifying item times 0.2, rounded up -/

/-- The double nearest to one fifth, in units: `3602879701896397 * 2^-54`. -/
theorem fifth_eq : F64.fifth = F64.finite ((3602879701896397 * 2 ^ 1020 : Nat) : Int) := by
  decide!

theorem excessBits_cents_le (c : Nat) (hc : c < 100 * 2 ^ 47) :
    excessBits (c * unitsPerOne / 100) ≤ 1068 := by
  apply excessBits_lt_of_lt
  apply Nat.div_lt_of_lt_mul
  have e : 100 * 2 ^ (53 + 1068) = 100 * 2 ^ 47 * unitsPerOne := by
    unfold unitsPerOne
    norm_num
  rw [e]
  exact Nat.mul_lt_mul_of_pos_right hc (by unfold unitsPerOne; exact Nat.two_pow_pos _)

theorem pow_split (s : Nat) (hs : s ≤ 1074) : 2 ^ (1074 - s) * 2 ^ s = unitsPerOne := by
  unfold unitsPerOne
  rw [← Nat.pow_add]
  congr 1
  omega

/-- A price of a whole multiple of five, `5 k`, times 0.2 rounds to exactly `k`. -/
theorem product_exact (k : Nat) (hk1 : 1 ≤ k) (hk : k < 2 ^ 45) :
    roundUnits (5 * k * unitsPerOne * (3602879701896397 * 2 ^ 1020)) unitsPerOne
      = k * unitsPerOne := by
  have hU : 0 < unitsPerOne := by unfold unitsPerOne; exact Nat.two_pow_pos _
  have ea : 5 * k * unitsPerOne * (3602879701896397 * 2 ^ 1020)
      = (k * unitsPerOne + k * 2 ^ 1020) * unitsPerOne := by
    unfold unitsPerOne
    rw [show (2 : Nat) ^ 1074 = 18014398509481984 * 2 ^ 1020 by norm_num]
    ring
  rw [ea]
  unfold roundUnits
  rw [Nat.mul_div_cancel _ hU]
  have h53 : 2 ^ 53 ≤ k * unitsPerOne + k * 2 ^ 1020 := by
    unfold unitsPerOne
    omega
  obtain ⟨_, h2⟩ := excessBits_spec _ h53
  have hs : excessBits (k * unitsPerOne + k * 2 ^ 1020) ≤ 1067 := by
    apply excessBits_lt_of_lt
    unfold unitsPerOne
    omega
  generalize excessBits (k * unitsPerOne + k * 2 ^ 1020) = s at h2 hs ⊢
  have hsplit := pow_split s (by omega)
  have hG : k * 2 ^ 1021 < 2 ^ s := by
    rw [Nat.pow_add] at h2
    unfold unitsPerOne at h2
    generalize 2 ^ s = G at h2 ⊢
    omega
  have hrem : 2 * (k * 2 ^ 1020 * unitsPerOne) < unitsPerOne * 2 ^ s := by
    have := Nat.mul_lt_mul_of_pos_left hG hU
    calc 2 * (k * 2 ^ 1020 * unitsPerOne) = unitsPerOne * (k * 2 ^ 1021) := by
          rw [show (2 : Nat) ^ 1021 = 2 * 2 ^ 1020 by norm_num]
          ring
      _ < unitsPerOne * 2 ^ s := this
  have hform : (k * unitsPerOne + k * 2 ^ 1020) * unitsPerOne
      = k * 2 ^ (1074 - s) * (unitsPerOne * 2 ^ s) + k * 2 ^ 1020 * unitsPerOne := by
    have : k * 2 ^ (1074 - s) * (unitsPerOne * 2 ^ s)
        = k * unitsPerOne * (2 ^ (1074 - s) * 2 ^ s) := by ring
    rw [this, hsplit]
    ring
  rw [hform, roundHalfEven_of_small_rem _ _ _ hrem]
  rw [Nat.mul_assoc, hsplit]

theorem lattice_succ_le (m n E : Nat) (h : n * E < m * E) : n * E + E ≤ m * E := by
  have hlt : n < m := Nat.lt_of_mul_lt_mul_right h
  have := Nat.mul_le_mul_right E (show n + 1 ≤ m by omega)
  rw [Nat.add_mul, Nat.one_mul] at this
  exact this

/-- A price that is not a whole multiple of five, strictly between `5 k` and
`5 (k + 1)`, times 0.2 rounds to a double strictly above `k` and at most `k + 1`. -/
theorem product_between (c k r : Nat) (hc : c = 500 * k + r) (hr1 : 1 ≤ r) (hr2 : r ≤ 499)
    (hb : c < 100 * 2 ^ 47) :
    k * unitsPerOne
        < roundUnits (roundUnits (c * unitsPerOne) 100 * (3602879701896397 * 2 ^ 1020)) unitsPerOne ∧
    roundUnits (roundUnits (c * unitsPerOne) 100 * (3602879701896397 * 2 ^ 1020)) unitsPerOne
        ≤ (k + 1) * unitsPerOne := by
  have hU : 0 < unitsPerOne := by unfold unitsPerOne; exact Nat.two_pow_pos _
  have hUval : unitsPerOne = 2 ^ 1074 := rfl
  -- facts on the first rounding
  have hsx := excessBits_cents_le c hb
  have hk53 : 2 ^ 53 ≤ c * unitsPerOne / 100 := by
    rw [Nat.le_div_iff_mul_le (by norm_num)]
    unfold unitsPerOne
    omega
  have hsx2 : 2 ≤ excessBits (c * unitsPerOne / 100) := by
    apply excessBits_ge_of_ge
    rw [Nat.le_div_iff_mul_le (by norm_num)]
    unfold unitsPerOne
    omega
  obtain ⟨he1, he2⟩ := roundUnits_error (c * unitsPerOne) 100 (by norm_num)
  have hx53 := roundUnits_le_pow (c * unitsPerOne) 100 (by norm_num) hk53
  obtain ⟨m, hm⟩ := pow_excessBits_dvd_roundUnits (c * unitsPerOne) 100
  have hsplitx := pow_split (excessBits (c * unitsPerOne / 100)) (by omega)
  have hpE : 2 ^ excessBits (c * unitsPerOne / 100) ≤ 2 ^ 1068 :=
    Nat.pow_le_pow_right (by norm_num) hsx
  generalize roundUnits (c * unitsPerOne) 100 = x at he1 he2 hx53 hm ⊢
  generalize excessBits (c * unitsPerOne / 100) = sx at hsx hsx2 he1 he2 hx53 hm hsplitx hpE
  -- the first rounding lies strictly between 5 k and 5 (k + 1), on its lattice
  have hxlo : 5 * k * unitsPerOne + 2 ^ sx ≤ x := by
    have hlt : 5 * k * unitsPerOne < x := by
      rw [hUval] at he1 ⊢
      generalize 2 ^ sx = E at he1 hpE
      omega
    have e1 : 5 * k * unitsPerOne = 5 * k * 2 ^ (1074 - sx) * 2 ^ sx := by
      rw [Nat.mul_assoc (5 * k), hsplitx]
    have e2 : x = m * 2 ^ sx := by rw [hm, Nat.mul_comm]
    rw [e1, e2] at hlt ⊢
    exact lattice_succ_le _ _ _ hlt
  have hxhi : x + 2 ^ sx ≤ 5 * (k + 1) * unitsPerOne := by
    have hlt : x < 5 * (k + 1) * unitsPerOne := by
      rw [hUval] at he2 ⊢
      generalize 2 ^ sx = E at he2 hpE
      omega
    have e1 : 5 * (k + 1) * unitsPerOne = 5 * (k + 1) * 2 ^ (1074 - sx) * 2 ^ sx := by
      rw [Nat.mul_assoc (5 * (k + 1)), hsplitx]
    have e2 : x = m * 2 ^ sx := by rw [hm, Nat.mul_comm]
    rw [e1, e2] at hlt ⊢
    exact lattice_succ_le _ _ _ hlt
  have hx53' : x ≤ 2 ^ 53 * 2 ^ sx := by rwa [Nat.pow_add] at hx53
  constructor
  · -- the lower bound
    have hq : x * (3602879701896397 * 2 ^ 1020) / unitsPerOne < 2 ^ (53 + (sx - 2)) := by
      apply Nat.div_lt_of_lt_mul
      have e : 2 ^ (53 + (sx - 2)) * 4 = 2 ^ 53 * 2 ^ sx := by
        rw [show (4 : Nat) = 2 ^ 2 by norm_num, ← Nat.pow_add, ← Nat.pow_add]
        congr 1
        omega
      rw [hUval]
      generalize 2 ^ (53 + (sx - 2)) = Q at e ⊢
      generalize 2 ^ sx = E at e hx53'
      omega
    have hsy := excessBits_lt_of_lt _ _ hq
    have hG : 4 * 2 ^ excessBits (x * (3602879701896397 * 2 ^ 1020) / unitsPerOne) ≤ 2 ^ sx := by
      have := Nat.pow_le_pow_right (show 0 < 2 by norm_num) hsy
      have e : 4 * 2 ^ (sx - 2) = 2 ^ sx := by
        rw [show (4 : Nat) = 2 ^ 2 by norm_num, ← Nat.pow_add]
        congr 1
        omega
      omega
    unfold roundUnits
    generalize excessBits (x * (3602879701896397 * 2 ^ 1020) / unitsPerOne) = sy at hsy hG ⊢
    have hsplity := pow_split sy (by omega)
    have hNd : (2 * (k * 2 ^ (1074 - sy)) + 1) * (unitsPerOne * 2 ^ sy)
        = 2 * (k * unitsPerOne * unitsPerOne) + unitsPerOne * 2 ^ sy := by
      have : (2 * (k * 2 ^ (1074 - sy)) + 1) * (unitsPerOne * 2 ^ sy)
          = 2 * (k * unitsPerOne * (2 ^ (1074 - sy) * 2 ^ sy)) + unitsPerOne * 2 ^ sy := by ring
      rw [this, hsplity]
    have hgt : (2 * (k * 2 ^ (1074 - sy)) + 1) * (unitsPerOne * 2 ^ sy)
        < 2 * (x * (3602879701896397 * 2 ^ 1020)) := by
      rw [hNd, hUval]
      rw [hUval] at hxlo
      have hGpos : 0 < 2 ^ sy := Nat.two_pow_pos _
      generalize 2 ^ sy = G at hG hGpos
      generalize 2 ^ sx = E at hG hxlo
      omega
    have hr := roundHalfEven_gt _ _ _ (Nat.mul_pos hU (Nat.two_pow_pos sy)) hgt
    have := Nat.mul_le_mul_right (2 ^ sy) hr
    have e : (k * 2 ^ (1074 - sy) + 1) * 2 ^ sy = k * unitsPerOne + 2 ^ sy := by
      rw [Nat.add_mul, Nat.one_mul, Nat.mul_assoc, hsplity]
    rw [e] at this
    have hpos : 0 < 2 ^ sy := Nat.two_pow_pos _
    omega
  · -- the upper bound
    have hrep : Representable ((k + 1) * unitsPerOne) := by
      apply representable_of_mul_pow (k + 1) 1074
      omega
    apply roundUnits_le_of_le _ _ _ hU hrep
    rw [hUval]
    rw [hUval] at hxhi
    have hEpos : 0 < 2 ^ sx := Nat.two_pow_pos _
    generalize 2 ^ sx = E at hxhi hx53' hEpos
    by_cases hhalf : 2 * x ≤ 5 * (k + 1) * 2 ^ 1074
    · omega
    · omega

theorem ceil_units (y K : Nat) (h1 : y ≤ K * unitsPerOne) (h2 : K * unitsPerOne < y + unitsPerOne) :
    -(-(y : Int) / (unitsPerOne : Int)) = (K : Int) := by
  unfold unitsPerOne at h1 h2 ⊢
  push_cast
  omega

theorem roundUnits_zero (b : Nat) (hb : 0 < b) : roundUnits 0 b = 0 := by
  have h := roundUnits_exact 0 b hb (by unfold Representable; exact Nat.dvd_zero _)
  rwa [Nat.zero_mul] at h

/-- The product of a price of `c` cents with 0.2, as the code computes it in
doubles, lies in the unit interval that ends at `c / 500` rounded up. -/
theorem product_bounds (c : Nat) (hb : c < 100 * 2 ^ 47) :
    roundUnits (roundUnits (c * unitsPerOne) 100 * (3602879701896397 * 2 ^ 1020)) unitsPerOne
        ≤ (c + 499) / 500 * unitsPerOne ∧
    (c + 499) / 500 * unitsPerOne
        < roundUnits (roundUnits (c * unitsPerOne) 100 * (3602879701896397 * 2 ^ 1020)) unitsPerOne
          + unitsPerOne := by
  have hU : 0 < unitsPerOne := by unfold unitsPerOne; exact Nat.two_pow_pos _
  have hdm := Nat.div_add_mod c 500
  have hlt := Nat.mod_lt c (show 0 < 500 by norm_num)
  by_cases hr : c % 500 = 0
  · by_cases hk : c / 500 = 0
    · have hc0 : c = 0 := by omega
      subst hc0
      rw [Nat.zero_mul, roundUnits_zero 100 (by norm_num), Nat.zero_mul, roundUnits_zero _ hU]
      simp [hU]
    · have hc : c = 500 * (c / 500) := by omega
      have hK : (c + 499) / 500 = c / 500 := by omega
      have hrep : Representable (5 * (c / 500) * unitsPerOne) :=
        representable_of_mul_pow _ 1074 (by omega)
      have hx : roundUnits (c * unitsPerOne) 100 = 5 * (c / 500) * unitsPerOne := by
        have := roundUnits_exact (5 * (c / 500) * unitsPerOne) 100 (by norm_num) hrep
        rw [← this]
        congr 1
        rw [show c * unitsPerOne = 500 * (c / 500) * unitsPerOne by rw [← hc]]
        ring
      rw [hx, product_exact (c / 500) (by omega) (by omega), hK]
      omega
  · have hK : (c + 499) / 500 = c / 500 + 1 := by omega
    obtain ⟨h1, h2⟩ := product_between c (c / 500) (c % 500) (by omega) (by omega) (by omega) hb
    rw [hK]
    constructor
    · exact h2
    · rw [Nat.add_mul, Nat.one_mul]
      omega

theorem price_points (tg : Target) (c : Nat) (hb : c < 100 * 2 ^ 47) :
    F64.toInt tg (F64.ceil (F64.mul
        (F64.finite ((roundUnits (c * unitsPerOne) 100 : Nat) : Int)) F64.fifth))
      = (((c + 499) / 500 : Nat) : Int) := by
  have hU : 0 < unitsPerOne := by unfold unitsPerOne; exact Nat.two_pow_pos _
  obtain ⟨h1, h2⟩ := product_bounds c hb
  have hKle : (c + 499) / 500 ≤ 2 ^ 45 := by omega
  rw [fifth_eq]
  generalize roundUnits (c * unitsPerOne) 100 = x at h1 h2
  have hn1 : decide (((x : Nat) : Int) < 0) = false := by
    rw [decide_eq_false_iff_not]
    omega
  have hn2 : decide ((((3602879701896397 * 2 ^ 1020 : Nat)) : Int) < 0) = false := by
    rw [decide_eq_false_iff_not]
    omega
  have hmax : ¬ maxUnits < roundUnits (x * (3602879701896397 * 2 ^ 1020)) unitsPerOne := by
    have : (c + 499) / 500 * unitsPerOne ≤ maxUnits := by
      unfold maxUnits unitsPerOne
      omega
    omega
  simp only [F64.mul, hn1, hn2, bne_self_eq_false, Int.natAbs_ofNat, F64.ofUnitsRatio, if_neg hmax,
    Bool.false_eq_true, if_false, F64.ceil]
  generalize roundUnits (x * (3602879701896397 * 2 ^ 1020)) unitsPerOne = y at h1 h2
  rw [ceil_units y _ h1 h2]
  have htd : Int.tdiv ((((c + 499) / 500 : Nat) : Int) * (unitsPerOne : Int)) (unitsPerOne : Int)
      = (((c + 499) / 500 : Nat) : Int) := by
    rw [Int.tdiv_eq_ediv (by positivity) (by omega), Int.mul_ediv_cancel _ (by omega)]
  have hr1 : minInt64 ≤ (((c + 499) / 500 : Nat) : Int) := by unfold minInt64; omega
  have hr2 : (((c + 499) / 500 : Nat) : Int) ≤ maxInt64 := by unfold maxInt64; omega
  simp only [F64.toInt, htd, hr1, hr2, and_self, if_true]

theorem wrap64_range (x : Int) : minInt64 ≤ wrap64 x ∧ wrap64 x ≤ maxInt64 := by
  unfold wrap64 minInt64 maxInt64
  omega

theorem wrap64_add_left (a b : Int) : wrap64 (wrap64 a + b) = wrap64 (a + b) := by
  unfold wrap64
  omega

theorem byteLen_of_ascii (s : List Char) (h : ∀ c ∈ s, c.toNat < 0x80) : byteLen s = s.length := by
  induction s with
  | nil => rfl
  | cons c cs ih =>
    have hc : c.toNat < 0x80 := h c (by simp)
    have hcs : ∀ x ∈ cs, x.toNat < 0x80 := fun x hx => h x (by simp [hx])
    have ih' := ih hcs
    unfold byteLen at ih' ⊢
    simp only [List.map_cons, List.sum_cons, utf8Len, if_pos hc, ih', List.length_cons]
    omega

theorem mem_of_mem_trimSpace (s : List Char) (c : Char) (h : c ∈ trimSpace s) : c ∈ s := by
  unfold trimSpace at h
  rw [List.mem_reverse] at h
  have h1 := List.dropWhile_subset isSpace h
  rw [List.mem_reverse] at h1
  exact List.dropWhile_subset isSpace h1

theorem scoreItem_wellFormed (tg : Target) (p : PricedItem) (hp : p.WellFormed) (points : Int) :
    scoreItem tg points p.item
      = if (trimSpace p.description.data).length % 3 = 0 then wrap64 (points + (p.bonus : Int))
        else points := by
  obtain ⟨hascii, hamt, hb⟩ := hp
  have hlen : byteLen (trimSpace p.description.data) = (trimSpace p.description.data).length :=
    byteLen_of_ascii _ (fun c hc => hascii c (mem_of_mem_trimSpace _ c hc))
  unfold scoreItem
  simp only [PricedItem.item, hlen]
  by_cases hq : (trimSpace p.description.data).length % 3 = 0
  · rw [if_pos hq, if_pos hq]
    have hparse := parseFloat_amount_small false p.whole p.frac hamt hb
    simp only [Bool.false_eq_true, if_false] at hparse
    rw [hparse]
    simp only []
    unfold PricedItem.cents at hb
    rw [price_points tg _ hb]
    simp [PricedItem.bonus, hq, PricedItem.cents]
  · rw [if_neg hq, if_neg hq]

/-- C8, as the claim states it, fails at the item `abc` priced `140737488355330.01`:
the nearest double of the price is 140737488355330 and its product with 0.2
rounds to 28147497671066, one less than the price divided by five, rounded up. -/
theorem C8_description_bonus_counterexample :
    scoreDescriptions amd64Latin1 [(⟨"abc", "140737488355330".data, "01".data⟩ : PricedItem).item] 0
      ≠ wrap64 (0 + (bonusSum [⟨"abc", "140737488355330".data, "01".data⟩] : Int)) := by
  decide!

/-- C8, amended. For every item list whose descriptions are ASCII and whose prices
are non-negative decimal amounts with at most two fractional digits and below
2^47 (140737488355328), rule 5 adds to the points (a 64-bit `int`) the sum, over
exactly the items whose trimmed description has a length that is a multiple of
3, of the price divided by 5 and rounded up; the other items add nothing. -/
theorem C8_description_bonus (tg : Target) (ps : List PricedItem)
    (hwf : ∀ p ∈ ps, p.WellFormed) (points : Int)
    (hlo : minInt64 ≤ points) (hhi : points ≤ maxInt64) :
    scoreDescriptions tg (ps.map PricedItem.item) points
      = wrap64 (points + (bonusSum ps : Int)) := by
  induction ps generalizing points with
  | nil =>
    simp only [scoreDescriptions, List.map_nil, List.foldl_nil, bonusSum, Nat.cast_zero, add_zero]
    exact (wrap64_of_range points hlo hhi).symm
  | cons p rest ih =>
    have hp : p.WellFormed := hwf p (by simp)
    have hrest : ∀ q ∈ rest, q.WellFormed := fun q hq => hwf q (by simp [hq])
    unfold scoreDescriptions at ih ⊢
    rw [List.map_cons, List.foldl_cons, scoreItem_wellFormed tg p hp points]
    by_cases hq : (trimSpace p.description.data).length % 3 = 0
    · rw [if_pos hq, ih hrest _ (wrap64_range _).1 (wrap64_range _).2, wrap64_add_left]
      congr 1
      simp only [bonusSum]
      push_cast
      ring
    · have hb0 : p.bonus = 0 := by simp [PricedItem.bonus, hq]
      rw [if_neg hq, ih hrest points hlo hhi]
      simp [bonusSum, hb0]

/-- C8, amended, at the five items of a receipt. -/
theorem C8_description_bonus_witness :
    scoreDescriptions amd64Latin1
        ([⟨"Mountain Dew 12PK", "6".data, "49".data⟩, ⟨"Emils Cheese Pizza", "12".data, "25".data⟩,
          ⟨"Knorr Creamy Chicken", "1".data, "26".data⟩, ⟨"Doritos Nacho Cheese", "3".data, "35".data⟩,
          ⟨"   Klarbrunn 12-PK 12 FL OZ  ", "12".data, "00".data⟩].map PricedItem.item) 0
      = wrap64 (0 + (bonusSum [⟨"Mountain Dew 12PK", "6".data, "49".data⟩,
          ⟨"Emils Cheese Pizza", "12".data, "25".data⟩, ⟨"Knorr Creamy Chicken", "1".data, "26".data⟩,
          ⟨"Doritos Nacho Cheese", "3".data, "35".data⟩,
          ⟨"   Klarbrunn 12-PK 12 FL OZ  ", "12".data, "00".data⟩] : Int)) :=
  C8_description_bonus amd64Latin1 _
    (by
      intro p hp
      simp only [List.mem_cons, List.mem_singleton, List.not_mem_nil, or_false] at hp
      rcases hp with rfl | rfl | rfl | rfl | rfl <;>
        exact ⟨by decide, ⟨by decide, by decide, by decide, by decide⟩, by decide!⟩)
    0 (by decide) (by decide)

/-! ### C11: a date or a time that does not parse -/

theorem atoi_malformed (s : List Char) (h : (atoi s).2 = some NumErr.malformed) : (atoi s).1 = 0 := by
  unfold atoi at h ⊢
  simp only [] at h ⊢
  split_ifs at h ⊢ <;> simp_all

theorem atoi_error_value (s : List Char) (h : (atoi s).2 ≠ none) :
    (atoi s).1 = 0 ∨ (atoi s).1 = maxInt64 ∨ (atoi s).1 = minInt64 := by
  unfold atoi at h ⊢
  simp only [] at h ⊢
  split_ifs at h ⊢ <;> simp_all

/-- C11, as the claim states it, fails at the date `2022-01-99999999999999999999`:
`Atoi` reports a range error for the last segment and returns the largest
`int`, which is odd, so rule 6 adds 6 points and not the 0 points of day 0. -/
theorem C11_parse_failure_date_counterexample :
    (atoi "99999999999999999999".data).2 = some NumErr.outOfRange ∧
    stringsSplit "2022-01-99999999999999999999".data '-'
      = ["2022".data, "01".data, "99999999999999999999".data] ∧
    scorePurchaseDay "2022-01-99999999999999999999".data 0 = some 6 ∧
    scorePurchaseDay "2022-01-00".data 0 = some 0 := by
  decide!

/-- C11, amended. For every purchaseDate whose last `-` segment is malformed for
`Atoi` (a syntax error), rule 6 adds what day 0 adds, nothing; for every
purchaseTime whose colon-stripped text `Atoi` reports any error for, rule 7
adds what 0 adds, nothing. -/
theorem C11_parse_failure_date_time (purchaseDate purchaseTime day : List Char) (points : Int)
    (hlast : (stringsSplit purchaseDate '-').get? ((stringsSplit purchaseDate '-').length - 1)
      = some day)
    (hday : (atoi day).2 = some NumErr.malformed)
    (htime : (atoi (stringsReplaceFirst ':' purchaseTime)).2 ≠ none) :
    scorePurchaseDay purchaseDate points = some points ∧
    scorePurchaseTime purchaseTime points = points := by
  constructor
  · unfold scorePurchaseDay
    simp only [hlast, atoi_malformed day hday]
    simp
  · unfold scorePurchaseTime
    rcases atoi_error_value _ htime with h | h | h <;> rw [h] <;> simp [maxInt64, minInt64]

/-- C11, amended, at the date `2022-01-1st` and the time `2pm`. -/
theorem C11_parse_failure_date_time_witness :
    scorePurchaseDay "2022-01-1st".data 0 = some 0 ∧ scorePurchaseTime "2pm".data 0 = 0 :=
  C11_parse_failure_date_time "2022-01-1st".data "2pm".data "1st".data 0
    (by decide!) (by decide!) (by decide!)

/-! ### C12: a total or a price that does not parse -/

theorem parseFloat_malformed (s : List Char) (h : (parseFloat s).2 = some NumErr.malformed) :
    (parseFloat s).1 = F64.zero := by
  unfold parseFloat at h ⊢
  cases hsp : special s with
  | some vn =>
    obtain ⟨v, n⟩ := vn
    simp only [hsp] at h ⊢
    split_ifs at h ⊢
    all_goals simp_all
  | none =>
    simp only [hsp] at h ⊢
    cases hrf : readFloat s with
    | none => simp only [hrf]
    | some rr =>
      obtain ⟨r, rest⟩ := rr
      simp only [hrf] at h ⊢
      split_ifs at h ⊢ <;> simp_all

theorem mul_zero_fifth : F64.mul F64.zero F64.fifth = F64.zero := by decide!

theorem scoreItem_malformed_price (tg : Target) (item : Item) (points : Int)
    (hprice : (parseFloat item.price.data).2 = some NumErr.malformed)
    (hq : byteLen (trimSpace item.shortDescription.data) % 3 = 0) :
    scoreItem tg points item = wrap64 (points + 0) := by
  unfold scoreItem
  rw [if_pos hq, parseFloat_malformed _ hprice, mul_zero_fifth]
  have : F64.toInt tg (F64.ceil F64.zero) = 0 := by
    simp [F64.ceil, F64.zero, F64.toInt, minInt64, maxInt64]
  rw [this]

/-- C12, as the claim states it, fails at the total `1e999`: `ParseFloat` reports a
range error and returns +Inf, for which `math.Ceil(x) == x` holds and
`math.Mod(x, 0.25)` is NaN, so rules 2 and 3 add 50 points and not the 75 of a
total of 0. -/
theorem C12_parse_failure_total_counterexample :
    (parseFloat "1e999".data).2 = some NumErr.outOfRange ∧
    scoreQuarterTotal (parseFloat "1e999".data).1 (scoreRoundTotal (parseFloat "1e999".data).1 0) = 50 ∧
    scoreQuarterTotal F64.zero (scoreRoundTotal F64.zero 0) = 75 := by
  decide!

/-- C12, amended. For every total that is malformed for `ParseFloat` (a syntax
error), rules 2 and 3 add what they add for a total of 0, that is 50 and 25;
for every item price that is malformed for `ParseFloat`, a qualifying item
adds what a price of 0 adds, nothing. -/
theorem C12_parse_failure_total_price (tg : Target) (total : List Char) (item : Item)
    (points : Int)
    (htotal : (parseFloat total).2 = some NumErr.malformed)
    (hprice : (parseFloat item.price.data).2 = some NumErr.malformed)
    (hq : byteLen (trimSpace item.shortDescription.data) % 3 = 0)
    (hlo : minInt64 ≤ points) (hhi : points ≤ maxInt64) :
    scoreQuarterTotal (parseFloat total).1 (scoreRoundTotal (parseFloat total).1 points)
      = wrap64 (wrap64 (points + 50) + 25) ∧
    scoreQuarterTotal (parseFloat total).1 (scoreRoundTotal (parseFloat total).1 points)
      = scoreQuarterTotal F64.zero (scoreRoundTotal F64.zero points) ∧
    scoreItem tg points item = points := by
  rw [parseFloat_malformed total htotal]
  refine ⟨?_, rfl, ?_⟩
  · have h1 : isWholeNumber F64.zero = true := by decide
    have h2 : F64.eq (F64.mod F64.zero F64.quarter) F64.zero = true := by decide!
    simp only [scoreRoundTotal, scoreQuarterTotal, h1, h2, if_true]
  · rw [scoreItem_malformed_price tg item points hprice hq, Int.add_zero]
    exact wrap64_of_range points hlo hhi

/-- C12, amended, at the total `ten` and an item `abc` priced `free`. -/
theorem C12_parse_failure_total_price_witness :
    scoreQuarterTotal (parseFloat "ten".data).1 (scoreRoundTotal (parseFloat "ten".data).1 0)
      = wrap64 (wrap64 (0 + 50) + 25) ∧
    scoreQuarterTotal (parseFloat "ten".data).1 (scoreRoundTotal (parseFloat "ten".data).1 0)
      = scoreQuarterTotal F64.zero (scoreRoundTotal F64.zero 0) ∧
    scoreItem amd64Latin1 0 ⟨"abc", "free"⟩ = 0 :=
  C12_parse_failure_total_price amd64Latin1 "ten".data ⟨"abc", "free"⟩ 0
    (by decide!) (by decide!) (by decide!) (by decide) (by decide)

/-! ### C15: records are permanent -/

theorem serveAll_lookup_some (tg : Target) (reqs : List Request) (store : Store) (id : String)
    (v : Int) (hs : store.lookup id = some v) (hid : id ∉ issued reqs) :
    (serveAll tg store reqs).lookup id = some v := by
  induction reqs generalizing store with
  | nil => exact hs
  | cons r rest ih =>
    cases r with
    | process bound newID =>
      cases bound with
      | error e =>
        have hrest : id ∉ issued rest := by simpa [issued] using hid
        apply ih _ _ hrest
        simpa [serve, processReceipts] using hs
      | ok receipt =>
        have hne : newID ≠ id := by
          intro h
          apply hid
          simp [issued, h]
        have hrest : id ∉ issued rest := by
          intro h
          apply hid
          simp [issued, h]
        apply ih _ _ hrest
        obtain ⟨p, hp⟩ := computePoints_isSome tg receipt
        simp only [serve, processReceipts, hp]
        rw [lookup_assign_ne _ _ _ _ hne]
        exact hs
    | points q =>
      have hrest : id ∉ issued rest := by simpa [issued] using hid
      apply ih _ _ hrest
      simp only [serve, getReceiptPointsByID]
      split <;> exact hs

/-- C15. A submission that stores points under `x` leaves the lookup of every other
identifier `y` unchanged; `getReceiptPointsByID` never modifies the store;
hence an identifier that has a record keeps the same points in every later
state reached by lookups and by submissions under other identifiers. -/
theorem C15_records_permanent (tg : Target) (store : Store) (bound : Except String Receipt)
    (x y : String) (v : Int) (reqs : List Request)
    (hxy : x ≠ y) (hrec : store.lookup y = some v) (hreqs : y ∉ issued reqs) :
    (processReceipts tg store bound x).1.lookup y = store.lookup y ∧
    (∀ id, (getReceiptPointsByID store id).1 = store) ∧
    (serveAll tg store reqs).lookup y = some v ∧
    (getReceiptPointsByID (serveAll tg store reqs) y).2 = ⟨200, Body.points v⟩ := by
  have hlater := serveAll_lookup_some tg reqs store y v hrec hreqs
  refine ⟨?_, ?_, hlater, ?_⟩
  · cases bound with
    | error e => simp [processReceipts]
    | ok receipt =>
      obtain ⟨p, hp⟩ := computePoints_isSome tg receipt
      simp only [processReceipts, hp]
      exact lookup_assign_ne _ _ _ _ hxy
  · intro id
    unfold getReceiptPointsByID
    split <;> rfl
  · simp [getReceiptPointsByID, hlater]

/-- C15 at a store that holds `id-1`, followed by a submission under `id-2`, a
lookup and a submission that does not bind. -/
theorem C15_records_permanent_witness :
    (processReceipts amd64Latin1 [("id-1", 28)]
        (Except.ok ⟨"Target", "2022-01-01", "13:01", [], "35.35"⟩) "id-2").1.lookup "id-1"
      = Store.lookup [("id-1", 28)] "id-1" ∧
    (∀ id, (getReceiptPointsByID [("id-1", 28)] id).1 = [("id-1", 28)]) ∧
    (serveAll amd64Latin1 [("id-1", 28)]
        [Request.process (Except.ok ⟨"Target", "2022-01-01", "13:01", [], "35.35"⟩) "id-2",
          Request.points "id-2", Request.process (Except.error "EOF") "id-1"]).lookup "id-1"
      = some 28 ∧
    (getReceiptPointsByID (serveAll amd64Latin1 [("id-1", 28)]
        [Request.process (Except.ok ⟨"Target", "2022-01-01", "13:01", [], "35.35"⟩) "id-2",
          Request.points "id-2", Request.process (Except.error "EOF") "id-1"]) "id-1").2
      = ⟨200, Body.points 28⟩ :=
  C15_records_permanent amd64Latin1 [("id-1", 28)]
    (Except.ok ⟨"Target", "2022-01-01", "13:01", [], "35.35"⟩) "id-2" "id-1" 28 _
    (by decide) (by decide) (by decide)

/-! ### C20: scoring is total -/

/-- C20. For every receipt that binds, the empty one included, the scoring code
returns points and does not panic: splitting any purchaseDate on `-` gives at
least one segment, so the index `len(split)-1` is in range. -/
theorem C20_scoring_total (tg : Target) (receipt : Receipt) :
    (∃ points, computePoints tg receipt = some points) ∧
    (∃ points, computePoints tg ⟨"", "", "", [], ""⟩ = some points) ∧
    (∀ purchaseDate : List Char, 1 ≤ (stringsSplit purchaseDate '-').length ∧
      ∃ day, (stringsSplit purchaseDate '-').get? ((stringsSplit purchaseDate '-').length - 1)
        = some day) ∧
    ∀ (store : Store) (newID : String),
      (processReceipts tg store (Except.ok receipt) newID).2 = ⟨200, Body.id newID⟩ := by
  refine ⟨computePoints_isSome tg receipt, computePoints_isSome tg _, ?_, ?_⟩
  · intro purchaseDate
    have hne : stringsSplit purchaseDate '-' ≠ [] := stringsSplitAux_ne_nil _ _ _
    have hpos := List.length_pos.mpr hne
    refine ⟨hpos, ?_⟩
    have hlt : (stringsSplit purchaseDate '-').length - 1 < (stringsSplit purchaseDate '-').length := by
      omega
    rw [List.get?_eq_getElem?, List.getElem?_eq_getElem hlt]
    exact ⟨_, rfl⟩
  · intro store newID
    obtain ⟨p, hp⟩ := computePoints_isSome tg receipt
    simp [processReceipts, hp]

/-! ### C14: the order of the items -/

theorem scoreItem_right_comm (tg : Target) (points : Int) (a b : Item) :
    scoreItem tg (scoreItem tg points a) b = scoreItem tg (scoreItem tg points b) a := by
  unfold scoreItem
  by_cases ha : byteLen (trimSpace a.shortDescription.data) % 3 = 0
  · by_cases hb : byteLen (trimSpace b.shortDescription.data) % 3 = 0
    · simp only [ha, hb, if_true]
      rw [wrap64_add_left, wrap64_add_left]
      congr 1
      ring
    · simp only [ha, hb, if_true, if_false]
  · by_cases hb : byteLen (trimSpace b.shortDescription.data) % 3 = 0
    · simp only [ha, hb, if_true, if_false]
    · simp only [ha, hb, if_false]

/-- C14. For every receipt and every permutation of its items, the points computed
for the permuted receipt are the points computed for the receipt. -/
theorem C14_item_order_irrelevant (tg : Target) (receipt : Receipt) (items : List Item)
    (hperm : items.Perm receipt.items) :
    computePoints tg { receipt with items := items } = computePoints tg receipt := by
  have hfold : ∀ points, scoreDescriptions tg items points
      = scoreDescriptions tg receipt.items points := by
    intro points
    unfold scoreDescriptions
    exact hperm.foldl_eq' (fun x _ y _ z => scoreItem_right_comm tg z x y) points
  unfold computePoints
  simp only [hperm.length_eq, hfold]

/-- C14 at a receipt of three items, reversed. -/
theorem C14_item_order_irrelevant_witness :
    computePoints amd64Latin1
        { (⟨"Target", "2022-01-01", "13:01",
            [⟨"Mountain Dew 12PK", "6.49"⟩, ⟨"Emils Cheese Pizza", "12.25"⟩, ⟨"abc", "1.26"⟩],
            "35.35"⟩ : Receipt) with
          items := [⟨"abc", "1.26"⟩, ⟨"Emils Cheese Pizza", "12.25"⟩, ⟨"Mountain Dew 12PK", "6.49"⟩] }
      = computePoints amd64Latin1 ⟨"Target", "2022-01-01", "13:01",
          [⟨"Mountain Dew 12PK", "6.49"⟩, ⟨"Emils Cheese Pizza", "12.25"⟩, ⟨"abc", "1.26"⟩], "35.35"⟩ :=
  C14_item_order_irrelevant amd64Latin1 _ _ (by decide)

/-! ### C17 and C19: how rule 5 measures a description -/

theorem utf8Len_eq_utf8Size (c : Char) : utf8Len c = c.utf8Size := by
  have h1 : (c.val ≤ UInt32.ofNatCore 0x7F (by decide)) ↔ c.toNat < 0x80 := by
    show c.val.toNat ≤ 0x7F ↔ c.val.toNat < 0x80
    omega
  have h2 : (c.val ≤ UInt32.ofNatCore 0x7FF (by decide)) ↔ c.toNat < 0x800 := by
    show c.val.toNat ≤ 0x7FF ↔ c.val.toNat < 0x800
    omega
  have h3 : (c.val ≤ UInt32.ofNatCore 0xFFFF (by decide)) ↔ c.toNat < 0x10000 := by
    show c.val.toNat ≤ 0xFFFF ↔ c.val.toNat < 0x10000
    omega
  unfold utf8Len Char.utf8Size
  simp only [h1, h2, h3]

theorem byteLen_eq_utf8ByteSize (s : List Char) : byteLen s = (String.mk s).utf8ByteSize := by
  show byteLen s = String.utf8ByteSize.go s
  induction s with
  | nil => rfl
  | cons c cs ih =>
    unfold byteLen at ih ⊢
    simp only [List.map_cons, List.sum_cons, String.utf8ByteSize.go, ih, utf8Len_eq_utf8Size]
    omega

theorem scoreItem_priced (tg : Target) (p : PricedItem) (hamt : IsAmount p.whole p.frac)
    (hb : p.cents < 100 * 2 ^ 47) (points : Int) :
    scoreItem tg points p.item
      = if byteLen (trimSpace p.description.data) % 3 = 0
        then wrap64 (points + (((p.cents + 499) / 500 : Nat) : Int)) else points := by
  unfold scoreItem
  simp only [PricedItem.item]
  by_cases hq : byteLen (trimSpace p.description.data) % 3 = 0
  · rw [if_pos hq, if_pos hq]
    have hparse := parseFloat_amount_small false p.whole p.frac hamt hb
    simp only [Bool.false_eq_true, if_false] at hparse
    rw [hparse]
    simp only []
    unfold PricedItem.cents at hb ⊢
    rw [price_points tg _ hb]
  · rw [if_neg hq, if_neg hq]

/-- C17, as the claim states it, fails at the item with the empty description priced
`10.00`, and at the one whose description is three spaces: the trimmed length 0
is a multiple of 3, the item qualifies, and it adds `ceil(10.00 * 0.2) = 2`
points, not 0. -/
theorem C17_zero_length_description_counterexample :
    trimSpace "".data = [] ∧ scoreItem amd64Latin1 0 ⟨"", "10.00"⟩ = 2 ∧
    trimSpace "   ".data = [] ∧ scoreItem amd64Latin1 0 ⟨"   ", "10.00"⟩ = 2 := by
  decide!

/-- C17, amended. For every item whose shortDescription is empty or only white space
(trimmed length 0), rule 5 treats the length as a multiple of 3 and the item
adds what any qualifying item adds: `math.Ceil(price * 0.2)` converted to
`int`; for a price written as a decimal amount below 2^47 that is the price
divided by five, rounded up, so the item adds 0 only when its price is 0. -/
theorem C17_zero_length_description (tg : Target) (item : Item) (p : PricedItem) (points : Int)
    (hitem : trimSpace item.shortDescription.data = [])
    (hdesc : trimSpace p.description.data = [])
    (hamt : IsAmount p.whole p.frac) (hb : p.cents < 100 * 2 ^ 47) :
    byteLen (trimSpace item.shortDescription.data) % 3 = 0 ∧
    scoreItem tg points item
      = wrap64 (points + F64.toInt tg (F64.ceil (F64.mul (parseFloat item.price.data).1 F64.fifth))) ∧
    scoreItem tg points p.item = wrap64 (points + (((p.cents + 499) / 500 : Nat) : Int)) ∧
    ((p.cents + 499) / 500 = 0 ↔ p.cents = 0) := by
  have h0 : byteLen (trimSpace item.shortDescription.data) % 3 = 0 := by
    rw [hitem]
    rfl
  have h1 : byteLen (trimSpace p.description.data) % 3 = 0 := by
    rw [hdesc]
    rfl
  refine ⟨h0, ?_, ?_, ?_⟩
  · unfold scoreItem
    rw [if_pos h0]
  · rw [scoreItem_priced tg p hamt hb points, if_pos h1]
  · omega

/-- C17, amended, at the item with a description of two spaces priced `10.00`. -/
theorem C17_zero_length_description_witness :
    byteLen (trimSpace (⟨"  ", "10.00"⟩ : Item).shortDescription.data) % 3 = 0 ∧
    scoreItem amd64Latin1 0 ⟨"  ", "10.00"⟩
      = wrap64 (0 + F64.toInt amd64Latin1
          (F64.ceil (F64.mul (parseFloat (⟨"  ", "10.00"⟩ : Item).price.data).1 F64.fifth))) ∧
    scoreItem amd64Latin1 0 (⟨"  ", "10".data, "00".data⟩ : PricedItem).item
      = wrap64 (0 + ((((⟨"  ", "10".data, "00".data⟩ : PricedItem).cents + 499) / 500 : Nat) : Int)) ∧
    (((⟨"  ", "10".data, "00".data⟩ : PricedItem).cents + 499) / 500 = 0
      ↔ (⟨"  ", "10".data, "00".data⟩ : PricedItem).cents = 0) :=
  C17_zero_length_description amd64Latin1 ⟨"  ", "10.00"⟩ ⟨"  ", "10".data, "00".data⟩ 0
    (by decide) (by decide) ⟨by decide, by decide, by decide, by decide⟩ (by decide!)

/-- C19, as the claim states it, fails at the description `éa`: two characters, not
a multiple of 3, but three bytes, so the code takes the item as qualifying and
adds the 2 points of the price `10.00`; and at `éab`, three characters but four
bytes, which the code does not take as qualifying. -/
theorem C19_description_characters_counterexample :
    (trimSpace "éa".data).length = 2 ∧ scoreItem amd64Latin1 0 ⟨"éa", "10.00"⟩ = 2 ∧
    (trimSpace "éab".data).length = 3 ∧ scoreItem amd64Latin1 0 ⟨"éab", "10.00"⟩ = 0 := by
  decide!

/-- C19, amended. Rule 5 measures the trimmed description in bytes: an item
qualifies for the bonus if and only if the number of bytes of the UTF-8
encoding of its description, after trimming leading and trailing white space,
is a multiple of 3; for an ASCII description that is the number of characters. -/
theorem C19_description_bytes (tg : Target) (item : Item) (points : Int) :
    ((String.mk (trimSpace item.shortDescription.data)).utf8ByteSize % 3 = 0 →
      scoreItem tg points item
        = wrap64 (points + F64.toInt tg (F64.ceil (F64.mul (parseFloat item.price.data).1 F64.fifth)))) ∧
    ((String.mk (trimSpace item.shortDescription.data)).utf8ByteSize % 3 ≠ 0 →
      scoreItem tg points item = points) ∧
    ((∀ c ∈ item.shortDescription.data, c.toNat < 0x80) →
      (String.mk (trimSpace item.shortDescription.data)).utf8ByteSize
        = (trimSpace item.shortDescription.data).length) := by
  rw [← byteLen_eq_utf8ByteSize]
  refine ⟨?_, ?_, ?_⟩
  · intro h
    unfold scoreItem
    rw [if_pos h]
  · intro h
    unfold scoreItem
    rw [if_neg h]
  · intro hascii
    exact byteLen_of_ascii _ (fun c hc => hascii c (mem_of_mem_trimSpace _ c hc))

/-! ### C13: the score is not negative -/

theorem scoreDescriptions_bounds (tg : Target) (ps : List PricedItem)
    (hwf : ∀ p ∈ ps, IsAmount p.whole p.frac ∧ p.cents < 100 * 2 ^ 47) (points : Int)
    (h0 : 0 ≤ points) (hmax : points + (priceSum ps : Int) ≤ maxInt64) :
    points ≤ scoreDescriptions tg (ps.map PricedItem.item) points ∧
    scoreDescriptions tg (ps.map PricedItem.item) points ≤ points + (priceSum ps : Int) := by
  induction ps generalizing points with
  | nil => simp [scoreDescriptions, priceSum]
  | cons p rest ih =>
    obtain ⟨hamt, hb⟩ := hwf p (by simp)
    have hrest : ∀ q ∈ rest, IsAmount q.whole q.frac ∧ q.cents < 100 * 2 ^ 47 :=
      fun q hq => hwf q (by simp [hq])
    simp only [priceSum, Nat.cast_add] at hmax ⊢
    unfold scoreDescriptions at ih ⊢
    rw [List.map_cons, List.foldl_cons, scoreItem_priced tg p hamt hb points]
    have hnn : (0 : Int) ≤ (((p.cents + 499) / 500 : Nat) : Int) := Int.natCast_nonneg _
    have hnr : (0 : Int) ≤ (priceSum rest : Int) := Int.natCast_nonneg _
    by_cases hq : byteLen (trimSpace p.description.data) % 3 = 0
    · rw [if_pos hq]
      have hw : wrap64 (points + (((p.cents + 499) / 500 : Nat) : Int))
          = points + (((p.cents + 499) / 500 : Nat) : Int) := by
        apply wrap64_of_range
        · unfold minInt64
          omega
        · omega
      rw [hw]
      obtain ⟨i1, i2⟩ := ih hrest (points + (((p.cents + 499) / 500 : Nat) : Int))
        (by omega) (by omega)
      constructor <;> omega
    · rw [if_neg hq]
      obtain ⟨i1, i2⟩ := ih hrest points h0 (by omega)
      constructor <;> omega

/-- C13, as the claim states it, fails at the receipt with one item `abc` priced
`100000000000000000000.00`: a fifth of the price is beyond the `int` range,
the conversion gives the smallest `int` on `amd64`, and the stored points are
negative. -/
theorem C13_non_negative_score_counterexample :
    computePoints amd64Latin1
        ⟨"Target", "2022-01-01", "13:01", [⟨"abc", "100000000000000000000.00"⟩], "35.35"⟩
      = some (-9223372036854775796) := by
  decide!

/-- C13, amended. For every receipt whose item prices are non-negative decimal
amounts with at most two fractional digits and below 2^47, with fewer than 2^53
items, and for which the most the rules can add (the retailer length, 75 for
the total, 5 per pair of items, a fifth of each price rounded up, 6 for the
day and 10 for the time) is within the `int` range, the points computed and
stored are greater than or equal to 0, whatever the total, the date and the
time. -/
theorem C13_non_negative_score (tg : Target) (retailer purchaseDate purchaseTime total : String)
    (ps : List PricedItem) (store : Store) (newID : String)
    (hwf : ∀ p ∈ ps, IsAmount p.whole p.frac ∧ p.cents < 100 * 2 ^ 47)
    (hlen : ps.length < 2 ^ 53)
    (hsum : ((retailer.data.length + 75 + ps.length / 2 * 5 + priceSum ps + 16 : Nat) : Int)
      ≤ maxInt64) :
    ∃ points, computePoints tg ⟨retailer, purchaseDate, purchaseTime, ps.map PricedItem.item, total⟩
        = some points ∧ 0 ≤ points ∧
      (processReceipts tg store
        (Except.ok ⟨retailer, purchaseDate, purchaseTime, ps.map PricedItem.item, total⟩) newID).1.lookup
          newID = some points := by
  have hmaxv : maxInt64 = 9223372036854775807 := rfl
  have hminv : minInt64 = -9223372036854775808 := rfl
  push_cast at hsum
  obtain ⟨p6, hp6⟩ := scorePurchaseDay_isSome purchaseDate.data
    (scoreDescriptions tg (ps.map PricedItem.item)
      (scoreItemCount tg (ps.map PricedItem.item).length
        (scoreQuarterTotal (parseFloat total.data).1
          (scoreRoundTotal (parseFloat total.data).1 (scoreRetailer tg 0 retailer.data)))))
  have hcomp : computePoints tg ⟨retailer, purchaseDate, purchaseTime, ps.map PricedItem.item, total⟩
      = some (scorePurchaseTime purchaseTime.data p6) := by
    unfold computePoints
    simp only [hp6]
  refine ⟨scorePurchaseTime purchaseTime.data p6, hcomp, ?_, ?_⟩
  swap
  · simp [processReceipts, hcomp, lookup_assign_same]
  -- rule 1
  have h1 := scoreRetailer_eq tg retailer.data 0 (le_refl 0) (by omega)
  have hc : ((retailer.data.countP (fun c => isLetter tg c || isNumber tg c) : Nat) : Int)
      ≤ (retailer.data.length : Int) := by
    exact_mod_cast List.countP_le_length _
  have hcnn : (0 : Int) ≤ ((retailer.data.countP (fun c => isLetter tg c || isNumber tg c) : Nat) : Int) :=
    Int.natCast_nonneg _
  generalize scoreRetailer tg 0 retailer.data = p1 at h1 hp6
  -- rules 2 and 3
  have h2 : p1 ≤ scoreRoundTotal (parseFloat total.data).1 p1 ∧
      scoreRoundTotal (parseFloat total.data).1 p1 ≤ p1 + 50 := by
    unfold scoreRoundTotal
    split
    · rw [wrap64_of_range _ (by omega) (by omega)]
      constructor <;> omega
    · constructor <;> omega
  generalize scoreRoundTotal (parseFloat total.data).1 p1 = p2 at h2 hp6
  have h3 : p2 ≤ scoreQuarterTotal (parseFloat total.data).1 p2 ∧
      scoreQuarterTotal (parseFloat total.data).1 p2 ≤ p2 + 25 := by
    unfold scoreQuarterTotal
    split
    · rw [wrap64_of_range _ (by omega) (by omega)]
      constructor <;> omega
    · constructor <;> omega
  generalize scoreQuarterTotal (parseFloat total.data).1 p2 = p3 at h3 hp6
  -- rule 4
  have h4 : scoreItemCount tg (ps.map PricedItem.item).length p3
      = p3 + ((ps.length / 2 * 5 : Nat) : Int) := by
    rw [List.length_map, scoreItemCount_eq tg _ hlen p3]
    apply wrap64_of_range
    · push_cast
      omega
    · push_cast
      omega
  rw [h4] at hp6
  have hnr : (0 : Int) ≤ (priceSum ps : Int) := Int.natCast_nonneg _
  -- rule 5
  have h5 := scoreDescriptions_bounds tg ps hwf (p3 + ((ps.length / 2 * 5 : Nat) : Int))
    (by push_cast; omega) (by push_cast; omega)
  generalize scoreDescriptions tg (ps.map PricedItem.item) (p3 + ((ps.length / 2 * 5 : Nat) : Int))
    = p5 at h5 hp6
  push_cast at h5
  -- rules 6 and 7
  have h6 : p5 ≤ p6 ∧ p6 ≤ p5 + 6 := by
    unfold scorePurchaseDay at hp6
    simp only [] at hp6
    split at hp6
    · exact absurd hp6 (by simp)
    · simp only [Option.some.injEq] at hp6
      rw [← hp6]
      split
      · rw [wrap64_of_range _ (by omega) (by omega)]
        constructor <;> omega
      · constructor <;> omega
  have h7 : p6 ≤ scorePurchaseTime purchaseTime.data p6 ∧
      scorePurchaseTime purchaseTime.data p6 ≤ p6 + 10 := by
    unfold scorePurchaseTime
    split
    · rw [wrap64_of_range _ (by omega) (by omega)]
      constructor <;> omega
    · constructor <;> omega
  omega

/-- C13, amended, at a receipt of five items. -/
theorem C13_non_negative_score_witness :
    ∃ points, computePoints amd64Latin1 ⟨"Target", "2022-01-01", "13:01",
        ([⟨"Mountain Dew 12PK", "6".data, "49".data⟩, ⟨"Emils Cheese Pizza", "12".data, "25".data⟩,
          ⟨"Knorr Creamy Chicken", "1".data, "26".data⟩, ⟨"Doritos Nacho Cheese", "3".data, "35".data⟩,
          ⟨"   Klarbrunn 12-PK 12 FL OZ  ", "12".data, "00".data⟩] : List PricedItem).map
            PricedItem.item, "35.35"⟩
        = some points ∧ 0 ≤ points ∧
      (processReceipts amd64Latin1 receiptPoints
        (Except.ok ⟨"Target", "2022-01-01", "13:01",
          ([⟨"Mountain Dew 12PK", "6".data, "49".data⟩, ⟨"Emils Cheese Pizza", "12".data, "25".data⟩,
            ⟨"Knorr Creamy Chicken", "1".data, "26".data⟩, ⟨"Doritos Nacho Cheese", "3".data, "35".data⟩,
            ⟨"   Klarbrunn 12-PK 12 FL OZ  ", "12".data, "00".data⟩] : List PricedItem).map
              PricedItem.item, "35.35"⟩) "id-1").1.lookup "id-1" = some points :=
  C13_non_negative_score amd64Latin1 "Target" "2022-01-01" "13:01" "35.35" _ receiptPoints "id-1"
    (by
      intro p hp
      simp only [List.mem_cons, List.mem_singleton, List.not_mem_nil, or_false] at hp
      rcases hp with rfl | rfl | rfl | rfl | rfl <;>
        exact ⟨⟨by decide, by decide, by decide, by decide⟩, by decide!⟩)
    (by decide) (by decide!)

/-! ### C16: a body that does not bind -/

theorem keyIs_unique (k a b : String) (ha : keyIs k a = true) (hb : keyIs k b = true) :
    a.data.map foldKeyChar = b.data.map foldKeyChar := by
  simp only [keyIs, beq_iff_eq] at ha hb
  rw [← ha, ← hb]

theorem keyIs_exclusive (k a b : String)
    (hab : a.data.map foldKeyChar ≠ b.data.map foldKeyChar) (ha : keyIs k a = true) :
    keyIs k b = false := by
  cases hb : keyIs k b
  · rfl
  · exact absurd (keyIs_unique k a b ha hb) hab

theorem orElse_isSome (a b : Option String) :
    (a.orElse (fun _ => b)).isSome = (a.isSome || b.isSome) := by
  cases a <;> simp [Option.orElse]

theorem decodeString_saved (structName field old : String) (v : Json) :
    (decodeString structName field old v).2.isSome = v.notText := by
  cases v <;> rfl

theorem decodeItemMember_saved (st : Item × Option String) (m : String × Json) :
    (decodeItemMember st m).2.isSome = (st.2.isSome || mistypedItemMember m) := by
  unfold decodeItemMember mistypedItemMember
  by_cases h1 : keyIs m.1 "shortDescription" = true
  · simp only [h1, if_true, orElse_isSome, decodeString_saved, Bool.true_or, Bool.true_and]
  · by_cases h2 : keyIs m.1 "price" = true
    · simp only [h1, h2, Bool.false_eq_true, if_true, if_false, orElse_isSome,
        decodeString_saved, Bool.or_true, Bool.true_and]
    · simp [h1, h2]

theorem foldl_decodeItemMember_saved (ms : List (String × Json)) (st : Item × Option String) :
    (ms.foldl decodeItemMember st).2.isSome = (st.2.isSome || ms.any mistypedItemMember) := by
  induction ms generalizing st with
  | nil => simp
  | cons m rest ih =>
    rw [List.foldl_cons, ih, decodeItemMember_saved, List.any_cons, Bool.or_assoc]

theorem decodeItem_saved (old : Item) (e : Json) :
    (decodeItem old e).2.isSome = mistypedElement e := by
  cases e with
  | object ms =>
    simp only [decodeItem, mistypedElement]
    rw [foldl_decodeItemMember_saved]
    rfl
  | _ => rfl

theorem decodeElems_saved (es : List Json) (backing : List Item) :
    ((decodeElems es backing).findSome? Prod.snd).isSome = es.any mistypedElement := by
  induction es generalizing backing with
  | nil => rfl
  | cons e rest ih =>
    rw [decodeElems, List.findSome?_cons, List.any_cons, ← decodeItem_saved (backing.headD ⟨"", ""⟩) e,
      ← ih backing.tail]
    cases (decodeItem (backing.headD ⟨"", ""⟩) e).2 <;> simp

theorem decodeItems_saved (old spare : List Item) (v : Json) :
    (decodeItems old spare v).2.isSome = mistypedItems v := by
  cases v with
  | array es =>
    simp only [decodeItems, mistypedItems]
    cases es with
    | nil => rfl
    | cons e rest =>
      simp only [List.isEmpty_cons, Bool.false_eq_true, if_false]
      exact decodeElems_saved _ _
  | _ => rfl

theorem decodeReceiptMember_saved (st : Decoding) (m : String × Json) :
    (decodeReceiptMember st m).saved.isSome = (st.saved.isSome || mistypedMember m) := by
  have n1 : "retailer".data.map foldKeyChar ≠ "items".data.map foldKeyChar := by decide
  have n2 : "purchaseDate".data.map foldKeyChar ≠ "items".data.map foldKeyChar := by decide
  have n3 : "purchaseTime".data.map foldKeyChar ≠ "items".data.map foldKeyChar := by decide
  have n4 : "items".data.map foldKeyChar ≠ "total".data.map foldKeyChar := by decide
  unfold decodeReceiptMember mistypedMember
  by_cases h1 : keyIs m.1 "retailer" = true
  · simp only [h1, if_true, orElse_isSome, decodeString_saved, Bool.true_or, Bool.true_and,
      keyIs_exclusive _ _ _ n1 h1, Bool.false_and, Bool.or_false]
  · by_cases h2 : keyIs m.1 "purchaseDate" = true
    · simp only [h1, h2, Bool.false_eq_true, if_true, if_false, orElse_isSome, decodeString_saved, Bool.true_or,
        Bool.or_true, Bool.true_and, keyIs_exclusive _ _ _ n2 h2, Bool.false_and, Bool.or_false]
    · by_cases h3 : keyIs m.1 "purchaseTime" = true
      · simp only [h1, h2, h3, Bool.false_eq_true, if_true, if_false, orElse_isSome, decodeString_saved,
          Bool.true_or, Bool.or_true, Bool.true_and, keyIs_exclusive _ _ _ n3 h3,
          Bool.false_and, Bool.or_false]
      · by_cases h4 : keyIs m.1 "items" = true
        · simp only [h1, h2, h3, h4, Bool.false_eq_true, if_true, if_false, orElse_isSome, decodeItems_saved,
            keyIs_exclusive _ _ _ n4 h4, Bool.or_self, Bool.false_and, Bool.false_or,
            Bool.true_and]
        · by_cases h5 : keyIs m.1 "total" = true
          · simp only [h1, h2, h3, h4, h5, Bool.false_eq_true, if_true, if_false, orElse_isSome,
              decodeString_saved, Bool.or_true, Bool.true_and, Bool.false_and, Bool.or_false]
          · simp [h1, h2, h3, h4, h5]

theorem foldl_decodeReceiptMember_saved (ms : List (String × Json)) (st : Decoding) :
    (ms.foldl decodeReceiptMember st).saved.isSome = (st.saved.isSome || ms.any mistypedMember) := by
  induction ms generalizing st with
  | nil => simp
  | cons m rest ih =>
    rw [List.foldl_cons, ih, decodeReceiptMember_saved, List.any_cons, Bool.or_assoc]

theorem decodeReceipt_saved (j : Json) : (decodeReceipt j).2.isSome = mistyped j := by
  cases j with
  | object ms =>
    simp only [decodeReceipt, mistyped]
    rw [foldl_decodeReceiptMember_saved]
    rfl
  | _ => rfl

theorem bindJSON_error (j : Json) (h : mistyped j = true) :
    ∃ e, (decodeReceipt j).2 = some e ∧ bindJSON (Except.ok j) = Except.error e := by
  have hs := decodeReceipt_saved j
  rw [h] at hs
  unfold bindJSON
  simp only []
  generalize decodeReceipt j = r at hs
  obtain ⟨receipt, saved⟩ := r
  cases saved with
  | none => simp at hs
  | some e => exact ⟨e, rfl, rfl⟩

theorem bindJSON_ok (j : Json) (h : mistyped j = false) :
    bindJSON (Except.ok j) = Except.ok (decodeReceipt j).1 := by
  have hs := decodeReceipt_saved j
  rw [h] at hs
  unfold bindJSON
  simp only []
  generalize decodeReceipt j = r at hs
  obtain ⟨receipt, saved⟩ := r
  cases saved with
  | none => rfl
  | some e => simp at hs

/-- The field `Items` met more than once in a body: `null` sets the slice to `nil`,
and a second array is decoded into the elements of the first, so a member
that the second array leaves out keeps its value. -/
theorem bindJSON_repeated_items :
    bindJSON (Except.ok (Json.object
        [("items", Json.array [Json.object [("shortDescription", Json.string "abc"),
            ("price", Json.string "45")]]),
          ("items", Json.null)]))
      = Except.ok ⟨"", "", "", [], ""⟩ ∧
    bindJSON (Except.ok (Json.object
        [("items", Json.array [Json.object [("shortDescription", Json.string "abc"),
            ("price", Json.string "45")]]),
          ("items", Json.array [Json.object [("shortDescription", Json.string "ab")]])]))
      = Except.ok ⟨"", "", "", [⟨"ab", "45"⟩], ""⟩ :=
  ⟨rfl, rfl⟩

/-- C16, as the claim states it, fails at the body `{}`: the struct `Receipt` carries
no `binding:"required"` tag, so the empty object binds to the zero receipt,
which is scored (75 points), stored and answered with 200 and an identifier. -/
theorem C16_structural_rejection_counterexample :
    bindJSON (Except.ok (Json.object [])) = Except.ok ⟨"", "", "", [], ""⟩ ∧
    processReceipts amd64Latin1 receiptPoints (bindJSON (Except.ok (Json.object []))) "id-1"
      = ([("id-1", 75)], ⟨200, Body.id "id-1"⟩) := by
  have hbind : bindJSON (Except.ok (Json.object [])) = Except.ok ⟨"", "", "", [], ""⟩ := rfl
  refine ⟨hbind, ?_⟩
  rw [hbind]
  decide!

/-- C16, amended. When the decoder cannot read a first JSON value from the body,
or that value is of the wrong types for a receipt (it is a boolean, a number,
a string or an array, or an object in which a text field, `items`, an element
of `items` or a text field of such an element has a value of the wrong JSON
type), `BindJSON` reports an error and `processReceipts` answers 400 with the
text of that error and leaves the store as it was; every other first value
binds, whatever fields it lacks. -/
theorem C16_bind_error_rejected (tg : Target) (store : Store) (first : Except String Json)
    (newID : String)
    (hbad : (∃ msg, first = Except.error msg) ∨ (∃ j, first = Except.ok j ∧ mistyped j = true)) :
    (∃ err, bindJSON first = Except.error err ∧
      processReceipts tg store (bindJSON first) newID
        = (store, ⟨400, Body.invalidReceipt err⟩)) ∧
    (∀ j, mistyped j = false → bindJSON (Except.ok j) = Except.ok (decodeReceipt j).1) := by
  refine ⟨?_, bindJSON_ok⟩
  rcases hbad with ⟨msg, rfl⟩ | ⟨j, rfl, hj⟩
  · exact ⟨msg, rfl, rfl⟩
  · obtain ⟨e, _, he⟩ := bindJSON_error j hj
    exact ⟨e, he, by rw [he]; rfl⟩

/-- C16, amended, at the body `{"retailer": 5}`, with the text of the error that
`encoding/json` reports for it. -/
theorem C16_bind_error_rejected_witness :
    mistyped (Json.object [("retailer", Json.number "5")]) = true ∧
    bindJSON (Except.ok (Json.object [("retailer", Json.number "5")]))
      = Except.error
          "json: cannot unmarshal number into Go struct field Receipt.retailer of type string" ∧
    ((∃ err, bindJSON (Except.ok (Json.object [("retailer", Json.number "5")]))
          = Except.error err ∧
        processReceipts amd64Latin1 [("id-0", 28)]
            (bindJSON (Except.ok (Json.object [("retailer", Json.number "5")]))) "id-1"
          = ([("id-0", 28)], ⟨400, Body.invalidReceipt err⟩)) ∧
      (∀ j, mistyped j = false → bindJSON (Except.ok j) = Except.ok (decodeReceipt j).1)) :=
  ⟨by decide, rfl,
    C16_bind_error_rejected amd64Latin1 [("id-0", 28)]
      (Except.ok (Json.object [("retailer", Json.number "5")])) "id-1"
      (Or.inr ⟨_, rfl, by decide⟩)⟩

end ReceiptProcessor
